import Mathlib

/-!
# Fixed-width blobs: `src/uint256.h` and `src/uint256.cpp`

A shallow embedding of the class template `base_blob<BITS>` and of the operations
defined on it, followed by theorems about them.

Conventions of the embedding.

* The storage `uint8_t data[WIDTH]` (with `WIDTH = BITS/8`) is a `List Nat`; a blob is
  *valid* when the list has `WIDTH` entries, each below 256.  A read `data[i]` is
  `getD i 0`, a store `data[i] = e` is `List.set i (u8 e)`: the stored unit is always
  the low eight bits of the value of `e`.
* Expressions are evaluated on `Nat` exactly as C++ evaluates them after integral
  promotion (`int`, 32 bits) or in `uint64_t`; since every result is stored into an
  eight-bit unit, only its residue modulo 256 is observable.
* `for (int i = 0; i < WIDTH; i++)` is a `foldl` over `List.range WIDTH`; a loop counting
  down is a structural recursion on the counter.
* A C string is a `List Char`; reading at its end gives the terminating NUL, which is
  neither a space nor a hexadecimal digit.
* `throw std::runtime_error(msg)` is recorded in `DivOutcome.error`.
-/

namespace Uint256

/-! ## Data model -/

/-- The enumerator `WIDTH = BITS/8`: the number of storage units of a `base_blob<BITS>`. -/
def WIDTH (BITS : Nat) : Nat := BITS / 8

/-- The class `base_blob<BITS>`; its only member is `uint8_t data[WIDTH]`. -/
structure base_blob (BITS : Nat) where
  data : List Nat
deriving DecidableEq, Repr

/-- Conversion of an integer value to `uint8_t`. -/
def u8 (n : Nat) : Nat := n % 256

/-- A blob is valid when its storage has `WIDTH` units and each unit is an eight-bit value. -/
def base_blob.valid {BITS : Nat} (b : base_blob BITS) : Prop :=
  b.data.length = WIDTH BITS ∧ ∀ x ∈ b.data, x < 256

instance {BITS : Nat} (b : base_blob BITS) : Decidable b.valid := by
  unfold base_blob.valid; exact inferInstance

/-- The read `data[i]`. -/
def base_blob.get {BITS : Nat} (b : base_blob BITS) (i : Nat) : Nat := b.data.getD i 0

/-- The unsigned integer given by the raw bytes of a blob, byte 0 least significant. -/
def base_blob.value {BITS : Nat} (b : base_blob BITS) : Nat :=
  b.data.foldr (fun x acc => x + 256 * acc) 0

/-- The blob of width `BITS` whose raw bytes, byte 0 least significant, spell `v mod 2^(8*WIDTH)`. -/
def ofValue (BITS : Nat) (v : Nat) : base_blob BITS :=
  ⟨(List.range (WIDTH BITS)).map (fun j => (v / 256 ^ j) % 256)⟩

/-! ## Constructors and assignment -/

/-- The default constructor `base_blob()`: `memset(data, 0, sizeof(data))`. -/
def base_blob.zero (BITS : Nat) : base_blob BITS := ⟨List.replicate (WIDTH BITS) 0⟩

/-- The constructor `base_blob(uint64_t b)` and `operator=(uint64_t b)`:
`data[0] = (unsigned int)b; data[1] = (unsigned int)(b >> 32);` and `data[i] = 0` for
`2 <= i < WIDTH`. -/
def base_blob.ofUint64 (BITS : Nat) (b : Nat) : base_blob BITS :=
  ⟨(List.range (WIDTH BITS)).map (fun i =>
      if i = 0 then u8 (b % 2 ^ 32)
      else if i = 1 then u8 ((b >>> 32) % 2 ^ 32)
      else 0)⟩

/-- The constructor `base_blob(const std::vector<unsigned char>& vch)`:
`assert(vch.size() == sizeof(data)); memcpy(data, &vch[0], sizeof(data));`.
A failed assertion is `none`. -/
def base_blob.ofVector (BITS : Nat) (vch : List Nat) : Option (base_blob BITS) :=
  if vch.length = WIDTH BITS then some ⟨vch.take (WIDTH BITS)⟩ else none

/-- The predicate `IsNull()` (and `operator!`): no unit is non-zero. -/
def base_blob.IsNull {BITS : Nat} (b : base_blob BITS) : Bool :=
  (List.range (WIDTH BITS)).all (fun i => b.get i == 0)

/-- The member `size()`: `sizeof(data)`. -/
def base_blob.size {BITS : Nat} (_b : base_blob BITS) : Nat := WIDTH BITS

/-- The raw byte representation, the bytes from `begin()` (`&data[0]`) up to `end()`
(`&data[WIDTH]`). -/
def base_blob.rawBytes {BITS : Nat} (b : base_blob BITS) : List Nat :=
  (List.range (WIDTH BITS)).map (fun i => b.get i)

/-- The member `GetUint64(int pos)`: with `ptr = data + pos * 8`, the value
`ptr[0] | ptr[1] << 8 | ... | ptr[7] << 56` computed in `uint64_t`. -/
def base_blob.GetUint64 {BITS : Nat} (b : base_blob BITS) (pos : Nat) : Nat :=
  (b.get (pos * 8) ||| b.get (pos * 8 + 1) <<< 8 ||| b.get (pos * 8 + 2) <<< 16 |||
    b.get (pos * 8 + 3) <<< 24 ||| b.get (pos * 8 + 4) <<< 32 ||| b.get (pos * 8 + 5) <<< 40 |||
    b.get (pos * 8 + 6) <<< 48 ||| b.get (pos * 8 + 7) <<< 56) % 2 ^ 64

/-- The member `uint512::trim256()`, a `const` member function: `uint256 ret;` and
`ret.data[i] = data[i]` for every `i < uint256::WIDTH`. -/
def trim256 (self : base_blob 512) : base_blob 256 :=
  ⟨(List.range (WIDTH 256)).map (fun i => self.get i)⟩

/-! ## Comparison -/

/-- The C library `memcmp(a, b, n)`: the first `n` bytes compared as unsigned characters
from index 0 upward; the sign of the result is that of the first difference. -/
def memcmp : List Nat → List Nat → Nat → Int
  | x :: xs, y :: ys, n + 1 => if x ≠ y then (x : Int) - (y : Int) else memcmp xs ys n
  | _, _, _ => 0

/-- The friend `operator==`: `memcmp(a.data, b.data, sizeof(a.data)) == 0`. -/
def opEq {BITS : Nat} (a b : base_blob BITS) : Bool :=
  decide (memcmp a.data b.data (WIDTH BITS) = 0)

/-- The friend `operator!=`: `memcmp(a.data, b.data, sizeof(a.data)) != 0`. -/
def opNe {BITS : Nat} (a b : base_blob BITS) : Bool :=
  decide (memcmp a.data b.data (WIDTH BITS) ≠ 0)

/-- The friend `operator>`: `memcmp(a.data, b.data, sizeof(a.data)) > 0`. -/
def opGt {BITS : Nat} (a b : base_blob BITS) : Bool :=
  decide (memcmp a.data b.data (WIDTH BITS) > 0)

/-- The friend `operator<`: `memcmp(a.data, b.data, sizeof(a.data)) < 0`. -/
def opLt {BITS : Nat} (a b : base_blob BITS) : Bool :=
  decide (memcmp a.data b.data (WIDTH BITS) < 0)

/-- The friend `operator>=`: `memcmp(a.data, b.data, sizeof(a.data)) >= 0`. -/
def opGe {BITS : Nat} (a b : base_blob BITS) : Bool :=
  decide (memcmp a.data b.data (WIDTH BITS) ≥ 0)

/-- The friend `operator<=`: `memcmp(a.data, b.data, sizeof(a.data)) <= 0`. -/
def opLe {BITS : Nat} (a b : base_blob BITS) : Bool :=
  decide (memcmp a.data b.data (WIDTH BITS) ≤ 0)

/-- The loop of `CompareTo`, `for (int i = WIDTH - 1; i >= 0; i--)`, with `n = i + 1`. -/
def CompareTo.loop (a b : List Nat) : Nat → Int
  | 0 => 0
  | i + 1 =>
    if a.getD i 0 < b.getD i 0 then -1
    else if a.getD i 0 > b.getD i 0 then 1
    else CompareTo.loop a b i

/-- The member `CompareTo`. -/
def base_blob.CompareTo {BITS : Nat} (a b : base_blob BITS) : Int :=
  CompareTo.loop a.data b.data (WIDTH BITS)

/-! ## Increment, complement, negation, addition -/

/-- The loop of the prefix `operator++`: `while (++data[i] == 0 && i < WIDTH - 1) i++;`.
The first argument bounds the number of evaluations of the condition; `WIDTH` of them
always suffice because `i` grows by one each time and stops at `WIDTH - 1`. -/
def opPreInc.loop (W : Nat) : Nat → Nat → List Nat → List Nat
  | 0, _, d => d
  | fuel + 1, i, d =>
    let d1 := d.set i (u8 (d.getD i 0 + 1))
    if d1.getD i 0 = 0 ∧ i < W - 1 then opPreInc.loop W fuel (i + 1) d1 else d1

/-- The prefix `operator++`. -/
def opPreInc {BITS : Nat} (self : base_blob BITS) : base_blob BITS :=
  ⟨opPreInc.loop (WIDTH BITS) (WIDTH BITS) 0 self.data⟩

/-- The loop of the prefix `operator--`:
`while (--data[i] == (uint32_t)-1 && i < WIDTH - 1) i++;`.  The decremented unit is
promoted to `int` and converted to `uint32_t` for the comparison with `4294967295`. -/
def opPreDec.loop (W : Nat) : Nat → Nat → List Nat → List Nat
  | 0, _, d => d
  | fuel + 1, i, d =>
    let d1 := d.set i (u8 (d.getD i 0 + 255))
    if d1.getD i 0 = 4294967295 ∧ i < W - 1 then opPreDec.loop W fuel (i + 1) d1 else d1

/-- The prefix `operator--`. -/
def opPreDec {BITS : Nat} (self : base_blob BITS) : base_blob BITS :=
  ⟨opPreDec.loop (WIDTH BITS) (WIDTH BITS) 0 self.data⟩

/-- The expression `~data[i]` stored into a unit: the complement of the promoted value,
of which the low eight bits are kept. -/
def compl8 (x : Nat) : Nat := u8 (4294967295 ^^^ x)

/-- The member `operator~`: `ret.data[i] = ~data[i]` for every `i`. -/
def opCompl {BITS : Nat} (self : base_blob BITS) : base_blob BITS :=
  ⟨(List.range (WIDTH BITS)).map (fun i => compl8 (self.get i))⟩

/-- The unary `operator-`: `ret.data[i] = ~data[i]` for every `i`, then `ret++`. -/
def opNeg {BITS : Nat} (self : base_blob BITS) : base_blob BITS :=
  opPreInc (opCompl self)

/-- One iteration of the loop of `operator+=(const base_blob&)`:
`uint64_t n = carry + data[i] + b.data[i]; data[i] = n & 0xffffffff; carry = n >> 32;`.
The state is `(carry, data)`. -/
def opAddAssign.step (b : List Nat) (st : Nat × List Nat) (i : Nat) : Nat × List Nat :=
  let n := (st.1 + st.2.getD i 0 + b.getD i 0) % 2 ^ 64
  (n >>> 32, st.2.set i (u8 (n &&& 0xffffffff)))

/-- The member `operator+=(const base_blob& b)`. -/
def opAddAssign {BITS : Nat} (self b : base_blob BITS) : base_blob BITS :=
  ⟨((List.range (WIDTH BITS)).foldl (opAddAssign.step b.data) (0, self.data)).2⟩

/-- The member `operator-=(const base_blob& b)`: `*this += -b`. -/
def opSubAssign {BITS : Nat} (self b : base_blob BITS) : base_blob BITS :=
  opAddAssign self (opNeg b)

/-- The member `operator+=(uint64_t b64)`: `base_blob b; b = b64; *this += b;`. -/
def opAddAssignU64 {BITS : Nat} (self : base_blob BITS) (b64 : Nat) : base_blob BITS :=
  opAddAssign self (base_blob.ofUint64 BITS b64)

/-- The member `operator-=(uint64_t b64)`: `base_blob b; b = b64; *this += -b;`. -/
def opSubAssignU64 {BITS : Nat} (self : base_blob BITS) (b64 : Nat) : base_blob BITS :=
  opAddAssign self (opNeg (base_blob.ofUint64 BITS b64))

/-- The friend `operator+`: `base_blob(a) += b`. -/
def opAdd {BITS : Nat} (a b : base_blob BITS) : base_blob BITS := opAddAssign a b

/-- The friend `operator-`: `base_blob(a) -= b`. -/
def opSub {BITS : Nat} (a b : base_blob BITS) : base_blob BITS := opSubAssign a b

/-! ## Shifts -/

/-- One iteration of the second loop of `operator<<=`, with `k = shift / 32` and
`r = shift % 32`:
`if (i + k + 1 < WIDTH && shift != 0) data[i + k + 1] |= (a.data[i] >> (32 - shift));`
`if (i + k < WIDTH) data[i + k] |= (a.data[i] << shift);`. -/
def opShlAssign.step (W k r : Nat) (a : List Nat) (d : List Nat) (i : Nat) : List Nat :=
  let d1 :=
    if i + k + 1 < W ∧ r ≠ 0 then
      d.set (i + k + 1) (u8 (d.getD (i + k + 1) 0 ||| (a.getD i 0 >>> (32 - r))))
    else d
  if i + k < W then
    d1.set (i + k) (u8 (d1.getD (i + k) 0 ||| (a.getD i 0 <<< r)))
  else d1

/-- The member `operator<<=(unsigned int shift)`: a copy `a` of the blob is taken, the
storage is cleared, and the loop runs over `i = 0 .. WIDTH - 1`. -/
def opShlAssign {BITS : Nat} (self : base_blob BITS) (shift : Nat) : base_blob BITS :=
  let k := shift / 32
  let r := shift % 32
  ⟨(List.range (WIDTH BITS)).foldl (opShlAssign.step (WIDTH BITS) k r self.data)
      (List.replicate (WIDTH BITS) 0)⟩

/-- One iteration of the second loop of `operator>>=`, with `k = shift / 32` and
`r = shift % 32`:
`if (i - k - 1 >= 0 && shift != 0) data[i - k - 1] |= (a.data[i] << (32 - shift));`
`if (i - k >= 0) data[i - k] |= (a.data[i] >> shift);`. -/
def opShrAssign.step (k r : Nat) (a : List Nat) (d : List Nat) (i : Nat) : List Nat :=
  let d1 :=
    if k + 1 ≤ i ∧ r ≠ 0 then
      d.set (i - k - 1) (u8 (d.getD (i - k - 1) 0 ||| (a.getD i 0 <<< (32 - r))))
    else d
  if k ≤ i then
    d1.set (i - k) (u8 (d1.getD (i - k) 0 ||| (a.getD i 0 >>> r)))
  else d1

/-- The member `operator>>=(unsigned int shift)`. -/
def opShrAssign {BITS : Nat} (self : base_blob BITS) (shift : Nat) : base_blob BITS :=
  let k := shift / 32
  let r := shift % 32
  ⟨(List.range (WIDTH BITS)).foldl (opShrAssign.step k r self.data)
      (List.replicate (WIDTH BITS) 0)⟩

/-- The friend `operator<<`: `base_blob(a) <<= shift`. -/
def opShl {BITS : Nat} (a : base_blob BITS) (shift : Nat) : base_blob BITS :=
  opShlAssign a shift

/-- The friend `operator>>`: `base_blob(a) >>= shift`. -/
def opShr {BITS : Nat} (a : base_blob BITS) (shift : Nat) : base_blob BITS :=
  opShrAssign a shift

/-! ## Multiplication -/

/-- One iteration of the inner loop of `operator*=(const base_blob&)` for a fixed `j`:
`uint64_t n = carry + data[i + j] + (uint64_t)a.data[j] * b.data[i];`
`data[i + j] = n & 0xffffffff; carry = n >> 32;`.  The state is `(carry, data)`. -/
def opMulAssign.inner (a b : List Nat) (j : Nat) (st : Nat × List Nat) (i : Nat) :
    Nat × List Nat :=
  let n := (st.1 + st.2.getD (i + j) 0 + a.getD j 0 * b.getD i 0) % 2 ^ 64
  (n >>> 32, st.2.set (i + j) (u8 (n &&& 0xffffffff)))

/-- One iteration of the outer loop: `carry = 0`, then the inner loop over the `i` with
`i + j < WIDTH`. -/
def opMulAssign.outer (W : Nat) (a b : List Nat) (d : List Nat) (j : Nat) : List Nat :=
  ((List.range (W - j)).foldl (opMulAssign.inner a b j) (0, d)).2

/-- The member `operator*=(const base_blob& b)`: `a = *this; *this = 0;` and the two
nested loops. -/
def opMulAssign {BITS : Nat} (self b : base_blob BITS) : base_blob BITS :=
  ⟨(List.range (WIDTH BITS)).foldl (opMulAssign.outer (WIDTH BITS) self.data b.data)
      (base_blob.ofUint64 BITS 0).data⟩

/-- The friend `operator*`: `base_blob(a) *= b`. -/
def opMul {BITS : Nat} (a b : base_blob BITS) : base_blob BITS := opMulAssign a b

/-! ## `bits` and division -/

/-- The inner loop of `bits()` for the unit `x = data[pos]`:
`for (int bits = 31; bits > 0; bits--) if (data[pos] & 1 << bits) return 32 * pos + bits + 1;`
followed by `return 32 * pos + 1;`. -/
def bits.inner (x pos : Nat) : Nat → Nat
  | 0 => 32 * pos + 1
  | b + 1 => if x &&& (1 <<< (b + 1)) ≠ 0 then 32 * pos + (b + 1) + 1 else bits.inner x pos b

/-- The outer loop of `bits()`, `for (int pos = WIDTH - 1; pos >= 0; pos--)`, with
`n = pos + 1`; it ends in `return 0`. -/
def bits.outer (d : List Nat) : Nat → Nat
  | 0 => 0
  | pos + 1 => if d.getD pos 0 ≠ 0 then bits.inner (d.getD pos 0) pos 31 else bits.outer d pos

/-- The member `bits()`. -/
def base_blob.bits {BITS : Nat} (b : base_blob BITS) : Nat := bits.outer b.data (WIDTH BITS)

/-- What `operator/=` leaves behind: the contents of `*this` when control leaves the
operator, and the message of the `std::runtime_error` it threw, if it threw. -/
structure DivOutcome (BITS : Nat) where
  self : base_blob BITS
  error : Option String
deriving DecidableEq, Repr

/-- The loop `while (shift >= 0) { ... shift--; }` of `operator/=`, with `n = shift + 1`:
`if (num >= div) { num -= div; data[shift / 32] |= (1 << (shift & 31)); }`
`div >>= 1;`.  The state is `(num, div, *this)`. -/
def opDivAssign.loop {BITS : Nat} :
    Nat → base_blob BITS × base_blob BITS × base_blob BITS →
      base_blob BITS × base_blob BITS × base_blob BITS
  | 0, st => st
  | shift + 1, (num, div, q) =>
    let st1 : base_blob BITS × base_blob BITS :=
      if opGe num div then
        (opSubAssign num div,
          ⟨q.data.set (shift / 32) (u8 (q.data.getD (shift / 32) 0 ||| (1 <<< (shift &&& 31))))⟩)
      else (num, q)
    opDivAssign.loop shift (st1.1, opShrAssign div 1, st1.2)

/-- The member `operator/=(const base_blob& b)`. -/
def opDivAssign {BITS : Nat} (self b : base_blob BITS) : DivOutcome BITS :=
  let div := b
  let num := self
  let q := base_blob.ofUint64 BITS 0
  let num_bits := num.bits
  let div_bits := div.bits
  if div_bits = 0 then ⟨q, some "Division by zero"⟩
  else if div_bits > num_bits then ⟨q, none⟩
  else
    let shift := num_bits - div_bits
    ⟨(opDivAssign.loop (shift + 1) (num, opShlAssign div shift, q)).2.2, none⟩

/-- The friend `operator/`: `base_blob(a) /= b`; the exception propagates to the caller. -/
def opDiv {BITS : Nat} (a b : base_blob BITS) : Except String (base_blob BITS) :=
  match (opDivAssign a b).error with
  | some msg => Except.error msg
  | none => Except.ok (opDivAssign a b).self

/-- The state of the loop of `operator/=` together with two records kept for the analysis
of the loop: the number of iterations performed so far and the indices `shift / 32` of the
writes `data[shift / 32] |= ...` performed so far, in order. -/
structure DivLoopState (BITS : Nat) where
  num : base_blob BITS
  div : base_blob BITS
  self : base_blob BITS
  iterations : Nat
  writes : List Nat

/-- The loop `while (shift >= 0) { ... shift--; }` of `operator/=` run on the `int` counter
`shift` itself, with the body of `opDivAssign.loop`.  The first argument bounds the number
of evaluations of the loop condition; `none` means the bound was reached before the
condition became false. -/
def opDivAssign.whileLoop {BITS : Nat} :
    Nat → Int → DivLoopState BITS → Option (DivLoopState BITS)
  | 0, _, _ => none
  | fuel + 1, shift, st =>
    if shift ≥ 0 then
      let st1 : DivLoopState BITS :=
        if opGe st.num st.div then
          { st with
            num := opSubAssign st.num st.div
            self := ⟨st.self.data.set (shift.toNat / 32)
              (u8 (st.self.data.getD (shift.toNat / 32) 0 ||| (1 <<< (shift.toNat &&& 31))))⟩
            writes := st.writes ++ [shift.toNat / 32] }
        else st
      opDivAssign.whileLoop fuel (shift - 1)
        { st1 with div := opShrAssign st1.div 1, iterations := st1.iterations + 1 }
    else some st

/-- The member `operator/=` with the loop run by `opDivAssign.whileLoop`: the outcome, the
number of iterations of the loop and the indices written. -/
def opDivAssign.traced {BITS : Nat} (fuel : Nat) (self b : base_blob BITS) :
    Option (DivOutcome BITS × Nat × List Nat) :=
  let div := b
  let num := self
  let q := base_blob.ofUint64 BITS 0
  let num_bits := num.bits
  let div_bits := div.bits
  if div_bits = 0 then some (⟨q, some "Division by zero"⟩, 0, [])
  else if div_bits > num_bits then some (⟨q, none⟩, 0, [])
  else
    let shift := num_bits - div_bits
    match opDivAssign.whileLoop fuel (shift : Int) ⟨num, opShlAssign div shift, q, 0, []⟩ with
    | some st => some (⟨st.self, none⟩, st.iterations, st.writes)
    | none => none

/-! ## Hexadecimal text -/

/-- The conversion `"%x"` of one value below 16. -/
def hexChar (n : Nat) : Char :=
  if n < 10 then Char.ofNat (48 + n) else Char.ofNat (87 + n)

/-- The output of `sprintf(p, "%02x", x)` for a unit `x`: two lower-case digits. -/
def sprintf02x (x : Nat) : List Char := [hexChar (x / 16), hexChar (x % 16)]

/-- The member `GetHex()`:
`for (unsigned int i = 0; i < sizeof(data); i++) sprintf(psz + i * 2, "%02x", data[sizeof(data) - i - 1]);`
and the first `sizeof(data) * 2` characters of `psz` are returned. -/
def base_blob.GetHex {BITS : Nat} (b : base_blob BITS) : List Char :=
  ((List.range (WIDTH BITS)).map (fun i => sprintf02x (b.get (WIDTH BITS - i - 1)))).flatten

/-- The C library `isspace` in the "C" locale: space, `\t`, `\n`, `\v`, `\f`, `\r`. -/
def isspace (c : Char) : Bool := c.toNat = 32 || (9 ≤ c.toNat && c.toNat ≤ 13)

/-- The C library `tolower` in the "C" locale. -/
def tolower (c : Char) : Char :=
  if 65 ≤ c.toNat ∧ c.toNat ≤ 90 then Char.ofNat (c.toNat + 32) else c

/-- Modelled from the spec: `HexDigit` of `utilstrencodings.h`, which is not among the
sources; the spec calls it hex-digit classification and has the codec accept a "run of
hexadecimal digits (case-insensitive)".  The value of a hexadecimal digit, and `-1` for
every other character. -/
def HexDigit (c : Char) : Int :=
  if 48 ≤ c.toNat ∧ c.toNat ≤ 57 then (c.toNat : Int) - 48
  else if 97 ≤ c.toNat ∧ c.toNat ≤ 102 then (c.toNat : Int) - 87
  else if 65 ≤ c.toNat ∧ c.toNat ≤ 70 then (c.toNat : Int) - 55
  else -1

/-- The step `if (psz[0] == '0' && tolower(psz[1]) == 'x') psz += 2;` of `SetHex`. -/
def SetHex.skip0x : List Char → List Char
  | c0 :: c1 :: rest => if c0 = '0' ∧ tolower c1 = 'x' then rest else c0 :: c1 :: rest
  | s => s

/-- The last loop of `SetHex`.  The first list holds the characters that `*psz--` reads,
from the last digit of the run back to `pbegin`; `p1` is the index of the unit written:
`while (psz >= pbegin && p1 < pend) {`
`  *p1 = ::HexDigit(*psz--);`
`  if (psz >= pbegin) { *p1 |= ((unsigned char)::HexDigit(*psz--) << 4); p1++; } }`. -/
def SetHex.fill (W : Nat) : List Char → Nat → List Nat → List Nat
  | [], _, d => d
  | [c], p1, d => if p1 < W then d.set p1 (u8 (HexDigit c).toNat) else d
  | c :: c2 :: rest, p1, d =>
    if p1 < W then
      let d1 := d.set p1 (u8 (HexDigit c).toNat)
      let d2 := d1.set p1 (u8 (d1.getD p1 0 ||| (u8 (HexDigit c2).toNat <<< 4)))
      SetHex.fill W rest (p1 + 1) d2
    else d

/-- The member `SetHex(const char* psz)`: the storage is cleared, leading spaces and one
`0x` are skipped, the run of hexadecimal digits is located, and the run is consumed from
its end. -/
def base_blob.SetHex {BITS : Nat} (_self : base_blob BITS) (psz : List Char) : base_blob BITS :=
  let s1 := psz.dropWhile isspace
  let s2 := SetHex.skip0x s1
  let run := s2.takeWhile (fun c => HexDigit c != -1)
  ⟨SetHex.fill (WIDTH BITS) run.reverse 0 (List.replicate (WIDTH BITS) 0)⟩

/-! ## Reference notions used to state the claims -/

/-- The blob whose first units are the bytes `l` and whose other units are zero. -/
def base_blob.ofBytes (BITS : Nat) (l : List Nat) : base_blob BITS :=
  ⟨l ++ List.replicate (WIDTH BITS - l.length) 0⟩

/-- The blob `b` with its lowest `s` bits cleared, the other bits kept. -/
def clearLowBits {BITS : Nat} (b : base_blob BITS) (s : Nat) : base_blob BITS :=
  ofValue BITS (b.value / 2 ^ s * 2 ^ s)

/-- The integer denoted in base 16 by a run of hexadecimal digits, most significant digit
first. -/
def hexval (d : List Char) : Nat :=
  d.foldl (fun acc c => (HexDigit c).toNat + 16 * acc) 0

/-- The sixteen lower-case hexadecimal digits, in order of value. -/
def lowerHexDigits : List Char := "0123456789abcdef".toList

/-- The blob of width `BITS` all of whose bits are set. -/
def base_blob.allOnes (BITS : Nat) : base_blob BITS := ⟨List.replicate (WIDTH BITS) 255⟩

/-! ## Auxiliary facts about lists and bytes -/

theorem set_append_mid (pre : List Nat) (y v : Nat) (rest : List Nat) :
    (pre ++ y :: rest).set pre.length v = pre ++ v :: rest := by
  induction pre with
  | nil => rfl
  | cons p ps ih => simp [List.set, ih]

theorem getD_append_mid (pre : List Nat) (y : Nat) (rest : List Nat) :
    (pre ++ y :: rest).getD pre.length 0 = y := by
  induction pre with
  | nil => rfl
  | cons p ps ih => simpa [List.getD_cons_succ] using ih

theorem hexChar_facts : ∀ n, n < 16 →
    HexDigit (hexChar n) = (n : Int) ∧ isspace (hexChar n) = false ∧ tolower (hexChar n) ≠ 'x' := by
  decide

theorem byte_of_nibbles (x : Nat) (hx : x < 256) :
    u8 (u8 (x % 16) ||| (u8 (x / 16) <<< 4)) = x := by
  have h1 : u8 (x % 16) = x % 16 := by unfold u8; omega
  have h2 : u8 (x / 16) = x / 16 := by unfold u8; omega
  have h3 : 2 ^ 4 * (x / 16) + x % 16 = 2 ^ 4 * (x / 16) ||| x % 16 :=
    Nat.mul_add_lt_is_or (by omega) _
  rw [h1, h2, Nat.shiftLeft_eq, Nat.lor_comm, Nat.mul_comm, ← h3]
  unfold u8; omega

/-- The characters that `SetHex` reads backwards from the text of `GetHex`. -/
theorem hexes_reverse (l : List Nat) :
    ((l.reverse.map sprintf02x).flatten).reverse =
      (l.map (fun x => [hexChar (x % 16), hexChar (x / 16)])).flatten := by
  induction l with
  | nil => rfl
  | cons x xs ih =>
    rw [List.reverse_cons, List.map_append, List.flatten_append, List.reverse_append, ih]
    simp [sprintf02x]

theorem GetHex_eq {BITS : Nat} (b : base_blob BITS) (h : b.data.length = WIDTH BITS) :
    b.GetHex = (b.data.reverse.map sprintf02x).flatten := by
  unfold base_blob.GetHex
  congr 1
  apply List.ext_getElem
  · simp [h]
  · intro i h1 h2
    simp at h1
    have h3 : WIDTH BITS - i - 1 < b.data.length := by omega
    simp [base_blob.get, List.getElem_reverse, List.getElem?_eq_getElem h3, h]
    congr 2
    omega

theorem fill_hexes (l : List Nat) : ∀ (pre : List Nat), (∀ x ∈ l, x < 256) →
    SetHex.fill (pre.length + l.length)
        ((l.map (fun x => [hexChar (x % 16), hexChar (x / 16)])).flatten) pre.length
        (pre ++ List.replicate l.length 0) = pre ++ l := by
  induction l with
  | nil => intro pre _; simp [SetHex.fill]
  | cons x xs ih =>
    intro pre hl
    have hx : x < 256 := hl x (List.mem_cons_self _ _)
    have hlo := (hexChar_facts (x % 16) (by omega)).1
    have hhi := (hexChar_facts (x / 16) (by omega)).1
    have hlt : pre.length < pre.length + (x :: xs).length := by simp
    simp only [List.map_cons, List.flatten_cons, List.cons_append, List.nil_append,
      SetHex.fill, if_pos hlt, List.replicate_succ, List.length_cons,
      set_append_mid, getD_append_mid, hlo, hhi, Int.toNat_ofNat, byte_of_nibbles x hx]
    have := ih (pre ++ [x]) (fun y hy => hl y (List.mem_cons_of_mem _ hy))
    simp only [List.length_append, List.length_singleton, List.append_assoc,
      List.singleton_append] at this
    rw [show pre.length + (xs.length + 1) = pre.length + 1 + xs.length by omega,
      if_pos (by omega)]
    exact this

theorem hexes_all (l : List Nat) (hl : ∀ x ∈ l, x < 256) :
    ∀ c ∈ (l.map sprintf02x).flatten,
      HexDigit c ≠ -1 ∧ isspace c = false ∧ tolower c ≠ 'x' := by
  intro c hc
  simp only [List.mem_flatten, List.mem_map] at hc
  obtain ⟨s, ⟨x, hx, rfl⟩, hcs⟩ := hc
  have hx2 := hl x hx
  simp only [sprintf02x, List.mem_cons, List.mem_singleton, List.not_mem_nil, or_false] at hcs
  rcases hcs with rfl | rfl
  · have := hexChar_facts (x / 16) (by omega)
    refine ⟨?_, this.2.1, this.2.2⟩
    rw [this.1]; omega
  · have := hexChar_facts (x % 16) (by omega)
    refine ⟨?_, this.2.1, this.2.2⟩
    rw [this.1]; omega

theorem skip0x_of_no_x (s : List Char) (h : ∀ c ∈ s, tolower c ≠ 'x') : SetHex.skip0x s = s := by
  match s with
  | [] => rfl
  | [_] => rfl
  | c0 :: c1 :: rest =>
    have : tolower c1 ≠ 'x' := h c1 (by simp)
    simp [SetHex.skip0x, this]

theorem dropWhile_of_none (p : Char → Bool) (s : List Char) (h : ∀ c ∈ s, p c = false) :
    s.dropWhile p = s := by
  cases s with
  | nil => rfl
  | cons c cs => simp [List.dropWhile, h c (List.mem_cons_self _ _)]

theorem memcmp_self (l : List Nat) : ∀ n, memcmp l l n = 0 := by
  induction l with
  | nil => intro n; simp [memcmp]
  | cons x xs ih =>
    intro n
    cases n with
    | zero => simp [memcmp]
    | succ n => simp [memcmp, ih n]

/-- C1: hex round trip.  For every width and every valid blob `b`, `SetHex` applied to the
text `GetHex(b)` (whatever the blob it is called on held before) yields `b`, and the
result compares equal to `b` under `operator==`. -/
theorem C1_SetHex_GetHex {BITS : Nat} (self b : base_blob BITS) (hb : b.valid) :
    self.SetHex b.GetHex = b ∧ opEq (self.SetHex b.GetHex) b = true := by
  suffices h : self.SetHex b.GetHex = b by
    refine ⟨h, ?_⟩
    rw [h]
    simp [opEq, memcmp_self]
  obtain ⟨hlen, hbytes⟩ := hb
  have hall := hexes_all b.data.reverse (fun x hx => hbytes x (List.mem_reverse.mp hx))
  have h1 : b.GetHex.dropWhile isspace = b.GetHex := by
    rw [GetHex_eq b hlen]
    exact dropWhile_of_none _ _ (fun c hc => (hall c hc).2.1)
  have h2 : SetHex.skip0x b.GetHex = b.GetHex := by
    rw [GetHex_eq b hlen]
    exact skip0x_of_no_x _ (fun c hc => (hall c hc).2.2)
  have h3 : b.GetHex.takeWhile (fun c => HexDigit c != -1) = b.GetHex := by
    rw [GetHex_eq b hlen, List.takeWhile_eq_self_iff]
    intro c hc
    simpa using (hall c hc).1
  unfold base_blob.SetHex
  simp only [h1, h2, h3]
  rw [GetHex_eq b hlen, hexes_reverse]
  have := fill_hexes b.data [] hbytes
  simp only [List.length_nil, Nat.zero_add, List.nil_append] at this
  rw [← hlen, this]

/-- C1 at a concrete 256-bit blob. -/
theorem C1_SetHex_GetHex_witness :
    (base_blob.ofBytes 256 [1, 2, 3, 255, 16]).valid ∧
      ((base_blob.zero 256).SetHex (base_blob.ofBytes 256 [1, 2, 3, 255, 16]).GetHex =
          base_blob.ofBytes 256 [1, 2, 3, 255, 16] ∧
        opEq ((base_blob.zero 256).SetHex (base_blob.ofBytes 256 [1, 2, 3, 255, 16]).GetHex)
          (base_blob.ofBytes 256 [1, 2, 3, 255, 16]) = true) :=
  ⟨by decide, C1_SetHex_GetHex _ _ (by decide)⟩

/-! ## Facts about `bits` and the division loop -/

theorem bits_inner_pos (x pos : Nat) : ∀ n, bits.inner x pos n ≠ 0 := by
  intro n
  induction n with
  | zero => simp [bits.inner]
  | succ n ih =>
    unfold bits.inner
    split
    · omega
    · exact ih

theorem bits_outer_eq_zero (d : List Nat) : ∀ n,
    bits.outer d n = 0 ↔ ∀ i, i < n → d.getD i 0 = 0 := by
  intro n
  induction n with
  | zero => simp [bits.outer]
  | succ n ih =>
    unfold bits.outer
    by_cases h : d.getD n 0 = 0
    · rw [if_neg (by simpa using h), ih]
      constructor
      · intro hh i hi
        rcases Nat.lt_succ_iff_lt_or_eq.mp hi with h1 | h1
        · exact hh i h1
        · rw [h1]; exact h
      · intro hh i hi
        exact hh i (by omega)
    · rw [if_pos h]
      constructor
      · intro hh; exact absurd hh (bits_inner_pos _ _ _)
      · intro hh; exact absurd (hh n (by omega)) h

theorem eq_replicate_zero_iff (d : List Nat) (W : Nat) (hlen : d.length = W) :
    d = List.replicate W 0 ↔ ∀ i, i < W → d.getD i 0 = 0 := by
  constructor
  · intro h i hi
    rw [h]
    simp [List.getElem?_replicate, hi]
  · intro h
    apply List.ext_getElem
    · simp [hlen]
    · intro i h1 h2
      have := h i (by omega)
      simp [List.getD_eq_getElem?_getD, List.getElem?_eq_getElem h1] at this
      simp [this]

theorem bits_eq_zero_iff {BITS : Nat} (b : base_blob BITS) (hb : b.data.length = WIDTH BITS) :
    b.bits = 0 ↔ b = base_blob.zero BITS := by
  unfold base_blob.bits base_blob.zero
  rw [bits_outer_eq_zero, ← eq_replicate_zero_iff b.data (WIDTH BITS) hb]
  constructor
  · intro h; cases b; simpa using h
  · intro h; rw [h]

theorem ofUint64_valid (BITS v : Nat) : (base_blob.ofUint64 BITS v).valid := by
  constructor
  · simp [base_blob.ofUint64]
  · intro x hx
    simp only [base_blob.ofUint64, List.mem_map] at hx
    obtain ⟨i, _, rfl⟩ := hx
    unfold u8
    split
    · omega
    · split <;> omega

theorem set_u8_valid {BITS : Nat} (q : base_blob BITS) (hq : q.valid) (i v : Nat) :
    (⟨q.data.set i (u8 v)⟩ : base_blob BITS).valid := by
  constructor
  · simpa using hq.1
  · intro x hx
    rcases List.mem_or_eq_of_mem_set hx with h | h
    · exact hq.2 x h
    · rw [h]; unfold u8; omega

theorem divLoop_valid {BITS : Nat} : ∀ (n : Nat) (num div q : base_blob BITS), q.valid →
    (opDivAssign.loop n (num, div, q)).2.2.valid := by
  intro n
  induction n with
  | zero => intro num div q hq; simpa [opDivAssign.loop] using hq
  | succ n ih =>
    intro num div q hq
    unfold opDivAssign.loop
    by_cases h : opGe num div = true
    · simp only [h, if_true]
      exact ih _ _ _ (set_u8_valid q hq _ _)
    · simp only [h, if_false]
      exact ih _ _ _ hq


/-! ## Facts about the shifts -/

theorem getD_set_eq (l : List Nat) (i j v : Nat) :
    (l.set i v).getD j 0 = if i = j ∧ j < l.length then v else l.getD j 0 := by
  simp only [List.getD_eq_getElem?_getD, List.getElem?_set]
  by_cases h : i = j
  · subst h
    by_cases h2 : i < l.length
    · simp [h2]
    · simp [h2, List.getElem?_eq_none (Nat.le_of_not_lt h2)]
  · simp [h]

theorem testBit_u8 (x i : Nat) : (u8 x).testBit i = (decide (i < 8) && x.testBit i) := by
  unfold u8
  rw [show (256 : Nat) = 2 ^ 8 by norm_num, Nat.testBit_mod_two_pow]

theorem u8_or_u8 (x y : Nat) : u8 (u8 x ||| y) = u8 (x ||| y) := by
  apply Nat.eq_of_testBit_eq
  intro i
  simp only [testBit_u8, Nat.testBit_or]
  cases decide (i < 8) <;> simp

theorem shl_step_length (W k r : Nat) (a d : List Nat) (n : Nat) :
    (opShlAssign.step W k r a d n).length = d.length := by
  unfold opShlAssign.step
  split <;> split <;> simp

theorem shl_step_getD (W k r : Nat) (a d : List Nat) (n j : Nat) (hd : d.length = W)
    (hj : j < W) :
    (opShlAssign.step W k r a d n).getD j 0 =
      if j = n + k then u8 (d.getD j 0 ||| (a.getD n 0 <<< r))
      else if j = n + k + 1 ∧ r ≠ 0 then u8 (d.getD j 0 ||| (a.getD n 0 >>> (32 - r)))
      else d.getD j 0 := by
  unfold opShlAssign.step
  by_cases h1 : n + k + 1 < W ∧ r ≠ 0
  · have h2 : n + k < W := by omega
    simp only [if_pos h1, if_pos h2, getD_set_eq, List.length_set, hd]
    by_cases e1 : j = n + k
    · subst e1
      have : ¬ (n + k + 1 = n + k ∧ n + k < W) := by omega
      simp only [if_neg this, if_true]
      simp [h2]
    · by_cases e2 : j = n + k + 1
      · subst e2
        have : ¬ (n + k = n + k + 1 ∧ n + k + 1 < W) := by omega
        simp only [if_neg this, if_neg e1]
        simp [h1.1, h1.2]
      · have t1 : ¬ (n + k = j ∧ j < W) := by omega
        have t2 : ¬ (n + k + 1 = j ∧ j < W) := by omega
        have t3 : ¬ (j = n + k + 1 ∧ r ≠ 0) := by omega
        simp only [if_neg t1, if_neg t2, if_neg e1, if_neg t3]
  · by_cases h2 : n + k < W
    · simp only [if_neg h1, if_pos h2, getD_set_eq, hd]
      have t3 : ¬ (j = n + k + 1 ∧ r ≠ 0) := by
        intro hh; apply h1; exact ⟨by omega, hh.2⟩
      by_cases e1 : j = n + k
      · subst e1
        simp [h2]
      · have t1 : ¬ (n + k = j ∧ j < W) := by omega
        simp only [if_neg t1, if_neg e1, if_neg t3]
    · simp only [if_neg h1, if_neg h2]
      have e1 : ¬ j = n + k := by omega
      have e2 : ¬ (j = n + k + 1 ∧ r ≠ 0) := by omega
      simp only [if_neg e1, if_neg e2]

theorem u8_zero_or_zero : u8 (0 ||| 0) = 0 := by decide

theorem shl_fold (W k r : Nat) (a : List Nat) : ∀ n,
    ((List.range n).foldl (opShlAssign.step W k r a) (List.replicate W 0)).length = W ∧
    ∀ j, j < W →
      ((List.range n).foldl (opShlAssign.step W k r a) (List.replicate W 0)).getD j 0 =
        u8 ((if r ≠ 0 ∧ k + 1 ≤ j ∧ j - k - 1 < n then a.getD (j - k - 1) 0 >>> (32 - r) else 0) |||
            (if k ≤ j ∧ j - k < n then a.getD (j - k) 0 <<< r else 0)) := by
  intro n
  induction n with
  | zero =>
    refine ⟨by simp, fun j hj => ?_⟩
    have c1 : ¬ (r ≠ 0 ∧ k + 1 ≤ j ∧ j - k - 1 < 0) := by omega
    have c2 : ¬ (k ≤ j ∧ j - k < 0) := by omega
    rw [if_neg c1, if_neg c2, u8_zero_or_zero]
    simp [List.getElem?_replicate, hj]
  | succ n ih =>
    obtain ⟨ihlen, ihget⟩ := ih
    rw [List.range_succ, List.foldl_append, List.foldl_cons, List.foldl_nil]
    refine ⟨by rw [shl_step_length]; exact ihlen, fun j hj => ?_⟩
    rw [shl_step_getD W k r a _ n j ihlen hj, ihget j hj]
    by_cases e1 : j = n + k
    · subst e1
      rw [if_pos rfl]
      have c2 : ¬ (k ≤ n + k ∧ n + k - k < n) := by omega
      have c2' : k ≤ n + k ∧ n + k - k < n + 1 := by omega
      have e : n + k - k = n := by omega
      rw [if_neg c2, if_pos c2', u8_or_u8, Nat.or_zero, e]
      have q : (r ≠ 0 ∧ k + 1 ≤ n + k ∧ n - 1 < n) ↔ (r ≠ 0 ∧ k + 1 ≤ n + k ∧ n - 1 < n + 1) := by
        omega
      simp only [q]
    · rw [if_neg e1]
      by_cases e2 : j = n + k + 1 ∧ r ≠ 0
      · obtain ⟨e2, hr⟩ := e2
        subst e2
        rw [if_pos ⟨rfl, hr⟩]
        have c1 : ¬ (r ≠ 0 ∧ k + 1 ≤ n + k + 1 ∧ n + k + 1 - k - 1 < n) := by omega
        have c2 : ¬ (k ≤ n + k + 1 ∧ n + k + 1 - k < n) := by omega
        have c1' : r ≠ 0 ∧ k + 1 ≤ n + k + 1 ∧ n + k + 1 - k - 1 < n + 1 := by omega
        have c2' : ¬ (k ≤ n + k + 1 ∧ n + k + 1 - k < n + 1) := by omega
        have e : n + k + 1 - k - 1 = n := by omega
        rw [if_neg c1, if_neg c2, if_pos c1', if_neg c2', u8_or_u8, e]
        simp
      · rw [if_neg e2]
        have q1 : (r ≠ 0 ∧ k + 1 ≤ j ∧ j - k - 1 < n + 1) ↔ (r ≠ 0 ∧ k + 1 ≤ j ∧ j - k - 1 < n) := by
          omega
        have q2 : (k ≤ j ∧ j - k < n + 1) ↔ (k ≤ j ∧ j - k < n) := by omega
        simp only [q1, q2]

theorem shl_getD {BITS : Nat} (b : base_blob BITS) (s j : Nat) (hj : j < WIDTH BITS) :
    (opShlAssign b s).data.getD j 0 =
      u8 ((if s % 32 ≠ 0 ∧ s / 32 + 1 ≤ j then b.data.getD (j - s / 32 - 1) 0 >>> (32 - s % 32) else 0) |||
          (if s / 32 ≤ j then b.data.getD (j - s / 32) 0 <<< (s % 32) else 0)) := by
  unfold opShlAssign
  simp only []
  rw [(shl_fold (WIDTH BITS) (s / 32) (s % 32) b.data (WIDTH BITS)).2 j hj]
  have q1 : (s % 32 ≠ 0 ∧ s / 32 + 1 ≤ j ∧ j - s / 32 - 1 < WIDTH BITS) ↔
      (s % 32 ≠ 0 ∧ s / 32 + 1 ≤ j) := by omega
  have q2 : (s / 32 ≤ j ∧ j - s / 32 < WIDTH BITS) ↔ s / 32 ≤ j := by omega
  simp only [q1, q2]

theorem shl_length {BITS : Nat} (b : base_blob BITS) (s : Nat) :
    (opShlAssign b s).data.length = WIDTH BITS :=
  (shl_fold (WIDTH BITS) (s / 32) (s % 32) b.data (WIDTH BITS)).1

theorem shr_step_length (k r : Nat) (a d : List Nat) (n : Nat) :
    (opShrAssign.step k r a d n).length = d.length := by
  unfold opShrAssign.step
  split <;> split <;> simp

theorem shr_step_getD (k r : Nat) (a d : List Nat) (n j : Nat) (hj : j < d.length) :
    (opShrAssign.step k r a d n).getD j 0 =
      if j + k = n then u8 (d.getD j 0 ||| (a.getD n 0 >>> r))
      else if j + k + 1 = n ∧ r ≠ 0 then u8 (d.getD j 0 ||| (a.getD n 0 <<< (32 - r)))
      else d.getD j 0 := by
  unfold opShrAssign.step
  by_cases h1 : k + 1 ≤ n ∧ r ≠ 0
  · have h2 : k ≤ n := by omega
    simp only [if_pos h1, if_pos h2, getD_set_eq, List.length_set]
    by_cases e1 : j + k = n
    · have t1 : n - k = j ∧ j < d.length := ⟨by omega, hj⟩
      have t2 : ¬ (n - k - 1 = n - k ∧ n - k < d.length) := by omega
      have e : n - k = j := by omega
      rw [if_pos t1, if_pos e1, if_neg t2, e]
    · by_cases e2 : j + k + 1 = n
      · have t1 : ¬ (n - k = j ∧ j < d.length) := by omega
        have t2 : n - k - 1 = j ∧ j < d.length := ⟨by omega, hj⟩
        rw [if_neg t1, if_neg e1, if_pos t2, if_pos ⟨e2, h1.2⟩]
        have e : n - k - 1 = j := by omega
        rw [e]
      · have t1 : ¬ (n - k = j ∧ j < d.length) := by omega
        have t2 : ¬ (n - k - 1 = j ∧ j < d.length) := by omega
        have t3 : ¬ (j + k + 1 = n ∧ r ≠ 0) := by omega
        rw [if_neg t1, if_neg t2, if_neg e1, if_neg t3]
  · have t3 : ¬ (j + k + 1 = n ∧ r ≠ 0) := by
      intro hh; apply h1; exact ⟨by omega, hh.2⟩
    by_cases h2 : k ≤ n
    · simp only [if_neg h1, if_pos h2, getD_set_eq]
      by_cases e1 : j + k = n
      · have t1 : n - k = j ∧ j < d.length := ⟨by omega, hj⟩
        have e : n - k = j := by omega
        rw [if_pos t1, if_pos e1, e]
      · have t1 : ¬ (n - k = j ∧ j < d.length) := by omega
        rw [if_neg t1, if_neg e1, if_neg t3]
    · simp only [if_neg h1, if_neg h2]
      have e1 : ¬ j + k = n := by omega
      rw [if_neg e1, if_neg t3]

theorem shr_fold (W k r : Nat) (a : List Nat) : ∀ n,
    ((List.range n).foldl (opShrAssign.step k r a) (List.replicate W 0)).length = W ∧
    ∀ j, j < W →
      ((List.range n).foldl (opShrAssign.step k r a) (List.replicate W 0)).getD j 0 =
        u8 ((if j + k < n then a.getD (j + k) 0 >>> r else 0) |||
            (if r ≠ 0 ∧ j + k + 1 < n then a.getD (j + k + 1) 0 <<< (32 - r) else 0)) := by
  intro n
  induction n with
  | zero =>
    refine ⟨by simp, fun j hj => ?_⟩
    have c1 : ¬ (j + k < 0) := by omega
    have c2 : ¬ (r ≠ 0 ∧ j + k + 1 < 0) := by omega
    rw [if_neg c1, if_neg c2, u8_zero_or_zero]
    simp [List.getElem?_replicate, hj]
  | succ n ih =>
    obtain ⟨ihlen, ihget⟩ := ih
    rw [List.range_succ, List.foldl_append, List.foldl_cons, List.foldl_nil]
    refine ⟨by rw [shr_step_length]; exact ihlen, fun j hj => ?_⟩
    rw [shr_step_getD k r a _ n j (by rw [ihlen]; exact hj), ihget j hj]
    by_cases e1 : j + k = n
    · subst e1
      have c1 : ¬ (j + k < j + k) := by omega
      have c2 : ¬ (r ≠ 0 ∧ j + k + 1 < j + k) := by omega
      have c1' : j + k < j + k + 1 := by omega
      have c2' : ¬ (r ≠ 0 ∧ j + k + 1 < j + k + 1) := by omega
      rw [if_pos rfl, if_neg c1, if_neg c2, if_pos c1', if_neg c2', u8_zero_or_zero,
        Nat.zero_or, Nat.or_zero]
    · rw [if_neg e1]
      by_cases e2 : j + k + 1 = n ∧ r ≠ 0
      · obtain ⟨e2, hr⟩ := e2
        subst e2
        have c1 : j + k < j + k + 1 := by omega
        have c2 : ¬ (r ≠ 0 ∧ j + k + 1 < j + k + 1) := by omega
        have c1' : j + k < j + k + 1 + 1 := by omega
        have c2' : r ≠ 0 ∧ j + k + 1 < j + k + 1 + 1 := ⟨hr, by omega⟩
        rw [if_pos ⟨rfl, hr⟩, if_pos c1, if_neg c2, if_pos c1', if_pos c2', u8_or_u8, Nat.or_zero]
      · rw [if_neg e2]
        have q1 : (j + k < n + 1) ↔ (j + k < n) := by omega
        have q2 : (r ≠ 0 ∧ j + k + 1 < n + 1) ↔ (r ≠ 0 ∧ j + k + 1 < n) := by omega
        simp only [q1, q2]

theorem shr_getD {BITS : Nat} (b : base_blob BITS) (s j : Nat) (hj : j < WIDTH BITS) :
    (opShrAssign b s).data.getD j 0 =
      u8 ((if j + s / 32 < WIDTH BITS then b.data.getD (j + s / 32) 0 >>> (s % 32) else 0) |||
          (if s % 32 ≠ 0 ∧ j + s / 32 + 1 < WIDTH BITS then
            b.data.getD (j + s / 32 + 1) 0 <<< (32 - s % 32) else 0)) :=
  (shr_fold (WIDTH BITS) (s / 32) (s % 32) b.data (WIDTH BITS)).2 j hj

theorem shr_length {BITS : Nat} (b : base_blob BITS) (s : Nat) :
    (opShrAssign b s).data.length = WIDTH BITS :=
  (shr_fold (WIDTH BITS) (s / 32) (s % 32) b.data (WIDTH BITS)).1

theorem getD_lt_of_valid {BITS : Nat} (b : base_blob BITS) (hb : b.valid) (m : Nat) :
    b.data.getD m 0 < 256 := by
  by_cases h : m < b.data.length
  · rw [List.getD_eq_getElem _ _ h]
    exact hb.2 _ (List.getElem_mem _)
  · rw [List.getD_eq_default _ _ (Nat.le_of_not_lt h)]
    omega

theorem testBit_byte_high (x i : Nat) (hx : x < 256) (hi : 8 ≤ i) : x.testBit i = false := by
  apply Nat.testBit_lt_two_pow
  calc x < 2 ^ 8 := by omega
    _ ≤ 2 ^ i := Nat.pow_le_pow_right (by omega) hi

theorem u8_lt (x : Nat) : u8 x < 256 := by unfold u8; omega

theorem valid_of_getD {BITS : Nat} (c : base_blob BITS) (hlen : c.data.length = WIDTH BITS)
    (h : ∀ j, j < WIDTH BITS → c.data.getD j 0 < 256) : c.valid := by
  refine ⟨hlen, fun x hx => ?_⟩
  obtain ⟨j, hj, rfl⟩ := List.getElem_of_mem hx
  have := h j (by omega)
  rwa [List.getD_eq_getElem _ _ hj] at this

theorem shr_valid {BITS : Nat} (b : base_blob BITS) (s : Nat) : (opShrAssign b s).valid := by
  apply valid_of_getD _ (shr_length b s)
  intro j hj
  rw [shr_getD b s j hj]
  exact u8_lt _

theorem shl_shr_bit {BITS : Nat} (b : base_blob BITS) (hb : b.valid) (s j i : Nat)
    (hj : j < WIDTH BITS)
    (h : ((opShrAssign (opShlAssign b s) s).data.getD j 0).testBit i = true) :
    (b.data.getD j 0).testBit i = true := by
  have hr : s % 32 < 32 := Nat.mod_lt _ (by omega)
  rw [shr_getD _ s j hj] at h
  simp only [testBit_u8, Nat.testBit_or, Bool.and_eq_true, Bool.or_eq_true,
    decide_eq_true_eq] at h
  obtain ⟨hi8, h | h⟩ := h
  · split at h
    · rename_i hlt
      rw [Nat.testBit_shiftRight, shl_getD b s _ hlt] at h
      simp only [testBit_u8, Nat.testBit_or, Bool.and_eq_true, Bool.or_eq_true,
        decide_eq_true_eq] at h
      obtain ⟨hri, h | h⟩ := h
      · split at h
        · rw [Nat.testBit_shiftRight,
            testBit_byte_high _ _ (getD_lt_of_valid b hb _) (by omega)] at h
          exact absurd h (by simp)
        · simp at h
      · split at h
        · rw [Nat.testBit_shiftLeft] at h
          simp only [Bool.and_eq_true, decide_eq_true_eq] at h
          have e1 : j + s / 32 - s / 32 = j := by omega
          have e2 : s % 32 + i - s % 32 = i := by omega
          rw [e1, e2] at h
          exact h.2
        · simp at h
    · simp at h
  · split at h
    · rename_i hc
      rw [Nat.testBit_shiftLeft, shl_getD b s _ hc.2] at h
      simp only [testBit_u8, Nat.testBit_or, Bool.and_eq_true, Bool.or_eq_true,
        decide_eq_true_eq] at h
      obtain ⟨hge, hm8, h | h⟩ := h
      · split at h
        · rw [Nat.testBit_shiftRight] at h
          have e1 : j + s / 32 + 1 - s / 32 - 1 = j := by omega
          have e2 : 32 - s % 32 + (i - (32 - s % 32)) = i := by omega
          rw [e1, e2] at h
          exact h
        · simp at h
      · split at h
        · rw [Nat.testBit_shiftLeft] at h
          simp only [Bool.and_eq_true, decide_eq_true_eq] at h
          omega
        · simp at h
    · simp at h

theorem getD_eq_zero_of_le (l : List Nat) (j : Nat) (h : l.length ≤ j) : l.getD j 0 = 0 :=
  List.getD_eq_default _ _ h

/-! ## The claims -/

/-- C2 (the code departs from the claim): at the 512-bit blobs `a = 768` (bytes `00 03`) and
`b = 513` (bytes `01 02`) `operator/` returns the quotient 0 without error, so
`(q + 1) * b > a` fails; the floor of the division is 1.  The two scenarios the claim
names, `10 / 3 = 3` and `0 / 5 = 0`, do hold. -/
theorem C2_div_not_floor :
    (base_blob.ofBytes 512 [0, 3]).valid ∧ (base_blob.ofBytes 512 [1, 2]).valid ∧
    (base_blob.ofBytes 512 [0, 3]).value = 768 ∧ (base_blob.ofBytes 512 [1, 2]).value = 513 ∧
    opDiv (base_blob.ofBytes 512 [0, 3]) (base_blob.ofBytes 512 [1, 2]) =
      Except.ok (base_blob.zero 512) ∧
    (base_blob.zero 512).value = 0 ∧
    ¬ (((base_blob.zero 512).value + 1) * (base_blob.ofBytes 512 [1, 2]).value >
        (base_blob.ofBytes 512 [0, 3]).value) ∧
    opDiv (base_blob.ofBytes 512 [10]) (base_blob.ofBytes 512 [3]) =
      Except.ok (base_blob.ofBytes 512 [3]) ∧
    opDiv (base_blob.ofBytes 512 [0]) (base_blob.ofBytes 512 [5]) =
      Except.ok (base_blob.ofBytes 512 [0]) := by
  have h : opDivAssign (base_blob.ofBytes 512 [0, 3]) (base_blob.ofBytes 512 [1, 2]) =
      ⟨base_blob.zero 512, none⟩ := by decide!
  have h1 : opDivAssign (base_blob.ofBytes 512 [10]) (base_blob.ofBytes 512 [3]) =
      ⟨base_blob.ofBytes 512 [3], none⟩ := by decide!
  have h2 : opDivAssign (base_blob.ofBytes 512 [0]) (base_blob.ofBytes 512 [5]) =
      ⟨base_blob.ofBytes 512 [0], none⟩ := by decide!
  refine ⟨by decide!, by decide!, by decide!, by decide!, ?_, by decide!, by decide!, ?_, ?_⟩
  · simp [opDiv, h]
  · simp [opDiv, h1]
  · simp [opDiv, h2]

/-- C3: division raises the error "Division by zero" exactly when the divisor is the zero
value, whatever the dividend; for every other valid divisor it returns a (valid)
quotient without error. -/
theorem C3_div_by_zero_iff {BITS : Nat} (a b : base_blob BITS) (hb : b.valid) :
    (opDiv a b = Except.error "Division by zero" ↔ b = base_blob.zero BITS) ∧
    (b ≠ base_blob.zero BITS → ∃ q, opDiv a b = Except.ok q ∧ q.valid) := by
  have hz := bits_eq_zero_iff b hb.1
  by_cases h0 : b.bits = 0
  · have hb0 := hz.mp h0
    have herr : opDiv a b = Except.error "Division by zero" := by
      simp [opDiv, opDivAssign, h0]
    exact ⟨⟨fun _ => hb0, fun _ => herr⟩, fun hne => absurd hb0 hne⟩
  · have hne : b ≠ base_blob.zero BITS := fun h => h0 (hz.mpr h)
    have hok : ∃ q, opDiv a b = Except.ok q ∧ q.valid := by
      by_cases h1 : b.bits > a.bits
      · exact ⟨base_blob.ofUint64 BITS 0, by simp [opDiv, opDivAssign, h0, h1],
          ofUint64_valid BITS 0⟩
      · refine ⟨_, by simp [opDiv, opDivAssign, h0, h1]; rfl, ?_⟩
        exact divLoop_valid _ _ _ _ (ofUint64_valid BITS 0)
    refine ⟨⟨fun h => ?_, fun h => absurd h hne⟩, fun _ => hok⟩
    obtain ⟨q, hq, _⟩ := hok
    rw [hq] at h
    cases h

/-- C3 at the dividend 7 and the divisor 0. -/
theorem C3_div_by_zero_iff_witness :
    (base_blob.zero 512).valid ∧
      ((opDiv (base_blob.ofBytes 512 [7]) (base_blob.zero 512) =
            Except.error "Division by zero" ↔ base_blob.zero 512 = base_blob.zero 512) ∧
        (base_blob.zero 512 ≠ base_blob.zero 512 →
          ∃ q, opDiv (base_blob.ofBytes 512 [7]) (base_blob.zero 512) = Except.ok q ∧ q.valid)) :=
  ⟨by decide, C3_div_by_zero_iff _ _ (by decide)⟩

/-- C4 (the code departs from the claim): for the 512-bit blob `b = 1`, `b + (-b)` has
byte 0 equal to 0 and every other byte equal to 255; it is not the zero value. -/
theorem C4_add_neg_not_zero : (base_blob.ofBytes 512 [1]).valid ∧
    opAdd (base_blob.ofBytes 512 [1]) (opNeg (base_blob.ofBytes 512 [1])) =
      base_blob.ofBytes 512 (0 :: List.replicate 63 255) ∧
    opAdd (base_blob.ofBytes 512 [1]) (opNeg (base_blob.ofBytes 512 [1])) ≠ base_blob.zero 512 := by
  decide!

/-- C5 (the code departs from the claim): for the 512-bit blobs `a = 255` and `b = 1`,
`a + b` has value 0, whereas `(255 + 1) mod 2^512 = 256`: the carry out of a unit is lost. -/
theorem C5_add_drops_carry : (base_blob.ofBytes 512 [255]).valid ∧ (base_blob.ofBytes 512 [1]).valid ∧
    (base_blob.ofBytes 512 [255]).value = 255 ∧ (base_blob.ofBytes 512 [1]).value = 1 ∧
    (opAdd (base_blob.ofBytes 512 [255]) (base_blob.ofBytes 512 [1])).value = 0 ∧
    (255 + 1) % 2 ^ 512 = 256 := by
  refine ⟨by decide!, by decide!, by decide!, by decide!, by decide!, by norm_num⟩

/-- C6 (the code departs from the claim): for the 512-bit blob `a = 16`, `a * a` has value
0, whereas `(16 * 16) mod 2^512 = 256`. -/
theorem C6_mul_drops_carry : (base_blob.ofBytes 512 [16]).valid ∧
    (base_blob.ofBytes 512 [16]).value = 16 ∧
    (opMul (base_blob.ofBytes 512 [16]) (base_blob.ofBytes 512 [16])).value = 0 ∧
    (16 * 16) % 2 ^ 512 = 256 := by
  refine ⟨by decide!, by decide!, by decide!, by norm_num⟩

/-- C7: ordering trichotomy.  For blobs of equal width exactly one of `a < b`, `a == b`,
`a > b` holds, and `<=`, `>=`, `!=` are the negations of `>`, `<`, `==`. -/
theorem C7_trichotomy {BITS : Nat} (a b : base_blob BITS) :
    ((opLt a b = true ∧ opEq a b = false ∧ opGt a b = false) ∨
     (opLt a b = false ∧ opEq a b = true ∧ opGt a b = false) ∨
     (opLt a b = false ∧ opEq a b = false ∧ opGt a b = true)) ∧
    (opLe a b = true ↔ ¬ opGt a b = true) ∧
    (opGe a b = true ↔ ¬ opLt a b = true) ∧
    (opNe a b = true ↔ ¬ opEq a b = true) := by
  unfold opLt opEq opGt opLe opGe opNe
  generalize memcmp a.data b.data (WIDTH BITS) = m
  rcases lt_trichotomy m 0 with h | h | h
  · simp [h, h.ne, h.le, not_lt.mpr h.le, not_le.mpr h]
  · simp [h]
  · simp [h, h.ne', h.le, not_lt.mpr h.le, not_le.mpr h]

/-- C8 (the code departs from the claim): for the 256-bit blobs `a = 1` and `b = 256`
(bytes `00 01`), `a.CompareTo(b)` is `-1` and the value of `a` is the smaller one, yet
`a < b` is false and `a > b` is true: `memcmp` decides on byte 0. -/
theorem C8_memcmp_order_not_numeric : (base_blob.ofBytes 256 [1]).valid ∧ (base_blob.ofBytes 256 [0, 1]).valid ∧
    (base_blob.ofBytes 256 [1]).value = 1 ∧ (base_blob.ofBytes 256 [0, 1]).value = 256 ∧
    (base_blob.ofBytes 256 [1]).CompareTo (base_blob.ofBytes 256 [0, 1]) = -1 ∧
    opLt (base_blob.ofBytes 256 [1]) (base_blob.ofBytes 256 [0, 1]) = false ∧
    opGt (base_blob.ofBytes 256 [1]) (base_blob.ofBytes 256 [0, 1]) = true := by
  decide!

/-- C9 (the code departs from the claim): for the 512-bit blob `b = 1`, `b << 512` is the
blob whose byte 16 is 1, not the zero value; and that blob shifted right by 512 is `b`,
not the zero value. -/
theorem C9_shift_by_width_not_zero : (base_blob.ofBytes 512 [1]).valid ∧
    opShl (base_blob.ofBytes 512 [1]) 512 = base_blob.ofBytes 512 (List.replicate 16 0 ++ [1]) ∧
    opShl (base_blob.ofBytes 512 [1]) 512 ≠ base_blob.zero 512 ∧
    opShr (base_blob.ofBytes 512 (List.replicate 16 0 ++ [1])) 512 = base_blob.ofBytes 512 [1] ∧
    opShr (base_blob.ofBytes 512 (List.replicate 16 0 ++ [1])) 512 ≠ base_blob.zero 512 := by
  decide!

/-- C10 (the code departs from the claim): for the 512-bit blob `b = 256` (bytes `00 01`) and
`s = 8`, `b << 8` is already the zero value, so `(b << 8) >> 8` is zero, whereas `b` with its
lowest 8 bits cleared is `b` itself; likewise for `b = 128` and `s = 1`.  In both cases no
set bit of `b` is among the `s` lowest or the `s` highest bits. -/
theorem C10_shl_shr_loses_unit_overflow :
    (base_blob.ofBytes 512 [0, 1]).valid ∧ 8 < 512 ∧
    (base_blob.ofBytes 512 [0, 1]).value = 256 ∧
    opShl (base_blob.ofBytes 512 [0, 1]) 8 = base_blob.zero 512 ∧
    opShr (opShl (base_blob.ofBytes 512 [0, 1]) 8) 8 = base_blob.zero 512 ∧
    clearLowBits (base_blob.ofBytes 512 [0, 1]) 8 = base_blob.ofBytes 512 [0, 1] ∧
    opShr (opShl (base_blob.ofBytes 512 [0, 1]) 8) 8 ≠
      clearLowBits (base_blob.ofBytes 512 [0, 1]) 8 ∧
    (base_blob.ofBytes 512 [128]).valid ∧ 1 < 512 ∧
    opShr (opShl (base_blob.ofBytes 512 [128]) 1) 1 = base_blob.zero 512 ∧
    clearLowBits (base_blob.ofBytes 512 [128]) 1 = base_blob.ofBytes 512 [128] ∧
    opShr (opShl (base_blob.ofBytes 512 [128]) 1) 1 ≠
      clearLowBits (base_blob.ofBytes 512 [128]) 1 := by
  refine ⟨by decide!, by decide, by decide!, by decide!, by decide!, by decide!, by decide!,
    by decide!, by decide, by decide!, by decide!, by decide!⟩

/-! ## The claims, continued -/

theorem ofUint64_zero (BITS : Nat) : base_blob.ofUint64 BITS 0 = base_blob.zero BITS := by
  unfold base_blob.ofUint64 base_blob.zero
  congr 1
  apply List.ext_getElem
  · simp
  · intro i h1 h2
    simp [u8]

theorem zero_bits (BITS : Nat) : (base_blob.zero BITS).bits = 0 :=
  (bits_eq_zero_iff _ (by simp [base_blob.zero])).mpr rfl

/-- C11 (the code departs from the claim): for the 512-bit blob 256 (bytes `00 01`), whose
highest set bit is bit 8, `bits()` returns 33, not 9; `2^(bits-1) <= value` fails. -/
theorem C11_bits_counts_32_per_unit :
    (base_blob.ofBytes 512 [0, 1]).valid ∧
    (base_blob.ofBytes 512 [0, 1]).value = 256 ∧
    (base_blob.ofBytes 512 [0, 1]).bits = 33 ∧
    ¬ (2 ^ ((base_blob.ofBytes 512 [0, 1]).bits - 1) ≤ (base_blob.ofBytes 512 [0, 1]).value) := by
  have h1 : (base_blob.ofBytes 512 [0, 1]).value = 256 := by decide!
  have h2 : (base_blob.ofBytes 512 [0, 1]).bits = 33 := by decide!
  refine ⟨by decide!, h1, h2, ?_⟩
  rw [h1, h2]
  norm_num

/-- C12 (the code departs from the claim): the 512-bit blob built from the 64-bit value
256 is the zero blob: its value is 0 and `GetUint64(0)` returns 0, not 256. -/
theorem C12_ofUint64_keeps_two_bytes :
    256 < 2 ^ 64 ∧
    base_blob.ofUint64 512 256 = base_blob.zero 512 ∧
    (base_blob.ofUint64 512 256).value = 0 ∧
    (base_blob.ofUint64 512 256).GetUint64 0 = 0 := by
  refine ⟨by norm_num, by decide!, by decide!, by decide!⟩

/-- C19 (the code departs from the claim): for the 512-bit blob 255, `++b` is 256 (bytes
`00 01`) while `b + 1` is zero; for the zero blob, `--b` is 255 (bytes `ff 00 ...`), not the
all-ones value, while `b - 1` is the all-ones value.  `++` on the all-ones value does give
zero. -/
theorem C19_inc_dec_differ_from_add_sub :
    opPreInc (base_blob.ofBytes 512 [255]) = base_blob.ofBytes 512 [0, 1] ∧
    opAddAssignU64 (base_blob.ofBytes 512 [255]) 1 = base_blob.zero 512 ∧
    opPreDec (base_blob.zero 512) = base_blob.ofBytes 512 [255] ∧
    opSubAssignU64 (base_blob.zero 512) 1 = base_blob.allOnes 512 ∧
    opPreDec (base_blob.zero 512) ≠ base_blob.allOnes 512 ∧
    opPreInc (base_blob.allOnes 512) = base_blob.zero 512 := by
  refine ⟨by decide!, by decide!, by decide!, by decide!, by decide!, by decide!⟩

/-- C20: a failed in-place division is not atomic.  For every dividend `a`, dividing by
the zero value raises "Division by zero" and leaves the zero value in the object the
operator was called on; a non-zero dividend has lost its contents. -/
theorem C20_div_by_zero_clears_dividend {BITS : Nat} (a : base_blob BITS) :
    (opDivAssign a (base_blob.zero BITS)).error = some "Division by zero" ∧
    (opDivAssign a (base_blob.zero BITS)).self = base_blob.zero BITS ∧
    (a ≠ base_blob.zero BITS → (opDivAssign a (base_blob.zero BITS)).self ≠ a) := by
  have h : opDivAssign a (base_blob.zero BITS) =
      ⟨base_blob.zero BITS, some "Division by zero"⟩ := by
    simp [opDivAssign, zero_bits, ofUint64_zero]
  rw [h]
  exact ⟨rfl, rfl, fun hne heq => hne heq.symm⟩

/-- C13: construction from a byte vector succeeds exactly when the vector has `WIDTH`
bytes (any other length fails the assertion), and on success the raw bytes of the blob,
from `begin()` to `end()`, are the input bytes in the same order. -/
theorem C13_ofVector_exact_length (BITS : Nat) (vch : List Nat) :
    ((base_blob.ofVector BITS vch).isSome = true ↔ vch.length = WIDTH BITS) ∧
    (vch.length ≠ WIDTH BITS → base_blob.ofVector BITS vch = none) ∧
    (∀ b, base_blob.ofVector BITS vch = some b →
      b.rawBytes = vch ∧ b.data = vch ∧ b.size = vch.length) := by
  unfold base_blob.ofVector
  by_cases h : vch.length = WIDTH BITS
  · simp only [if_pos h, Option.isSome_some, true_iff, ne_eq, not_true_eq_false,
      false_implies, true_and, Option.some.injEq]
    refine ⟨h, fun hne => absurd h hne, ?_⟩
    intro b hb
    subst hb
    have ht : vch.take (WIDTH BITS) = vch := List.take_of_length_le (by omega)
    refine ⟨?_, ht, by simp [base_blob.size, h]⟩
    unfold base_blob.rawBytes base_blob.get
    simp only [ht]
    apply List.ext_getElem
    · simp [h]
    · intro i h1 h2
      simp [List.getElem?_eq_getElem h2]
  · simp [h]

/-- C17: `trim256` copies the lowest 256 bits.  For every 512-bit blob `x`, raw byte `i` of
`x.trim256()` is raw byte `i` of `x` for `i` in `0..31`; the result has 32 bytes and is
valid when `x` is.  The member is `const`: `x` is not written. -/
theorem C17_trim256_copies_low_bytes (x : base_blob 512) :
    (∀ i, i < 32 → (trim256 x).get i = x.get i) ∧
    (trim256 x).data.length = WIDTH 256 ∧
    (x.valid → (trim256 x).valid) := by
  have hW : WIDTH 256 = 32 := by decide
  have hg : ∀ i, i < 32 → (trim256 x).get i = x.get i := by
    intro i hi
    unfold trim256 base_blob.get
    simp [hW, hi, List.getElem?_range]
  refine ⟨hg, by simp [trim256], fun hx => ?_⟩
  apply valid_of_getD _ (by simp [trim256])
  intro j hj
  have := hg j (by rw [hW] at hj; exact hj)
  unfold base_blob.get at this
  rw [this]
  exact getD_lt_of_valid x hx j

theorem hexChar_lower : ∀ n, n < 16 →
    hexChar n ∈ lowerHexDigits ∧ lowerHexDigits.getD n '0' = hexChar n := by
  decide

theorem hexes_length (l : List Nat) : ((l.map sprintf02x).flatten).length = 2 * l.length := by
  induction l with
  | nil => rfl
  | cons x xs ih => simp [sprintf02x, ih]; omega

theorem hexes_getElem (l : List Nat) : ∀ i, i < l.length →
    ((l.map sprintf02x).flatten)[2 * i]? = some (hexChar (l.getD i 0 / 16)) ∧
    ((l.map sprintf02x).flatten)[2 * i + 1]? = some (hexChar (l.getD i 0 % 16)) := by
  induction l with
  | nil => intro i hi; simp at hi
  | cons x xs ih =>
    intro i hi
    cases i with
    | zero => simp [sprintf02x]
    | succ i =>
      have h := ih i (by simpa using hi)
      have e1 : 2 * (i + 1) = 2 * i + 1 + 1 := by omega
      have e2 : 2 * (i + 1) + 1 = 2 * i + 1 + 1 + 1 := by omega
      rw [e2, e1]
      simp only [List.map_cons, List.flatten_cons, sprintf02x, List.cons_append,
        List.nil_append, List.getElem?_cons_succ, List.getD_cons_succ]
      exact h

theorem reverse_getD (l : List Nat) (i : Nat) (hi : i < l.length) :
    l.reverse.getD i 0 = l.getD (l.length - 1 - i) 0 := by
  rw [List.getD_eq_getElem _ _ (by simpa using hi), List.getD_eq_getElem _ _ (by omega),
    List.getElem_reverse]

/-- C14: the format of `GetHex`.  For every valid blob the text has `2 * WIDTH` characters,
each of them one of `0123456789abcdef`, and characters `2i` and `2i+1` are the digits of
the high and the low nibble of raw byte `WIDTH - 1 - i`. -/
theorem C14_GetHex_format {BITS : Nat} (b : base_blob BITS) (hb : b.valid) :
    b.GetHex.length = 2 * WIDTH BITS ∧
    (∀ c ∈ b.GetHex, c ∈ lowerHexDigits) ∧
    (∀ i, i < WIDTH BITS →
      b.GetHex[2 * i]? = some (lowerHexDigits.getD (b.get (WIDTH BITS - 1 - i) / 16) '0') ∧
      b.GetHex[2 * i + 1]? = some (lowerHexDigits.getD (b.get (WIDTH BITS - 1 - i) % 16) '0')) := by
  obtain ⟨hlen, hbytes⟩ := hb
  rw [GetHex_eq b hlen]
  refine ⟨by rw [hexes_length, List.length_reverse, hlen], ?_, ?_⟩
  · intro c hc
    simp only [List.mem_flatten, List.mem_map] at hc
    obtain ⟨s, ⟨x, hx, rfl⟩, hcs⟩ := hc
    have hx2 := hbytes x (List.mem_reverse.mp hx)
    simp only [sprintf02x, List.mem_cons, List.mem_singleton, List.not_mem_nil, or_false] at hcs
    rcases hcs with rfl | rfl
    · exact (hexChar_lower _ (by omega)).1
    · exact (hexChar_lower _ (by omega)).1
  · intro i hi
    have hlt : b.get (WIDTH BITS - 1 - i) < 256 := getD_lt_of_valid b ⟨hlen, hbytes⟩ _
    have h := hexes_getElem b.data.reverse i (by rw [List.length_reverse, hlen]; exact hi)
    rw [reverse_getD _ _ (by rw [hlen]; exact hi), hlen] at h
    rw [(hexChar_lower _ (show b.get (WIDTH BITS - 1 - i) / 16 < 16 by omega)).2,
      (hexChar_lower _ (show b.get (WIDTH BITS - 1 - i) % 16 < 16 by omega)).2]
    exact h

/-- C14 at a concrete 160-bit blob. -/
theorem C14_GetHex_format_witness :
    (base_blob.ofBytes 160 [171, 1]).valid ∧
    ((base_blob.ofBytes 160 [171, 1]).GetHex.length = 2 * WIDTH 160 ∧
    (∀ c ∈ (base_blob.ofBytes 160 [171, 1]).GetHex, c ∈ lowerHexDigits) ∧
    (∀ i, i < WIDTH 160 →
      (base_blob.ofBytes 160 [171, 1]).GetHex[2 * i]? =
        some (lowerHexDigits.getD ((base_blob.ofBytes 160 [171, 1]).get (WIDTH 160 - 1 - i) / 16) '0') ∧
      (base_blob.ofBytes 160 [171, 1]).GetHex[2 * i + 1]? =
        some (lowerHexDigits.getD ((base_blob.ofBytes 160 [171, 1]).get (WIDTH 160 - 1 - i) % 16) '0'))) :=
  ⟨by decide, C14_GetHex_format _ (by decide)⟩

/-! ## Facts about `SetHex` -/

theorem char_cases (P : Char → Prop) (lo hi : Nat) (c : Char) (h1 : lo ≤ c.toNat)
    (h2 : c.toNat ≤ hi) (h : ∀ n, lo ≤ n → n ≤ hi → P (Char.ofNat n)) : P c := by
  have := h c.toNat h1 h2
  rwa [Char.ofNat_toNat] at this

theorem HexDigit_lt (c : Char) : (HexDigit c).toNat < 16 := by
  unfold HexDigit
  split_ifs <;> omega

theorem isspace_of_hex (c : Char) (h : HexDigit c ≠ -1) : isspace c = false := by
  unfold HexDigit at h
  unfold isspace
  split_ifs at h <;> simp <;> omega

theorem tolower_upper : ∀ n, 65 ≤ n → n ≤ 90 →
    HexDigit (tolower (Char.ofNat n)) = HexDigit (Char.ofNat n) ∧
    (tolower (Char.ofNat n) = 'x' → Char.ofNat n = 'X') := by
  decide

theorem tolower_of_not_upper (c : Char) (h : ¬ (65 ≤ c.toNat ∧ c.toNat ≤ 90)) : tolower c = c := by
  unfold tolower
  rw [if_neg h]

theorem HexDigit_tolower (c : Char) : HexDigit (tolower c) = HexDigit c := by
  by_cases h : 65 ≤ c.toNat ∧ c.toNat ≤ 90
  · exact char_cases (fun c => HexDigit (tolower c) = HexDigit c) 65 90 c h.1 h.2
      (fun n h1 h2 => (tolower_upper n h1 h2).1)
  · rw [tolower_of_not_upper c h]

theorem tolower_eq_x (c : Char) (h : tolower c = 'x') : c = 'x' ∨ c = 'X' := by
  by_cases hc : 65 ≤ c.toNat ∧ c.toNat ≤ 90
  · right
    exact char_cases (fun c => tolower c = 'x' → c = 'X') 65 90 c hc.1 hc.2
      (fun n h1 h2 => (tolower_upper n h1 h2).2) h
  · left
    rwa [tolower_of_not_upper c hc] at h

theorem not_hex_x : HexDigit 'x' = -1 ∧ HexDigit 'X' = -1 ∧ isspace '0' = false ∧
    tolower 'x' = 'x' ∧ tolower 'X' = 'x' := by decide

theorem tolower_ne_x_of_hex (c : Char) (h : HexDigit c ≠ -1) : tolower c ≠ 'x' := by
  intro hx
  rcases tolower_eq_x c hx with rfl | rfl
  · exact h not_hex_x.1
  · exact h not_hex_x.2.1

theorem dropWhile_isspace_append (ws t : List Char) (hws : ∀ c ∈ ws, isspace c = true)
    (ht : ∀ c r, t = c :: r → isspace c = false) : (ws ++ t).dropWhile isspace = t := by
  induction ws with
  | nil =>
    cases t with
    | nil => rfl
    | cons c r => simp [List.dropWhile, ht c r rfl]
  | cons w ws ih =>
    have hw := hws w (List.mem_cons_self _ _)
    simp only [List.cons_append, List.dropWhile, hw]
    exact ih (fun c hc => hws c (List.mem_cons_of_mem _ hc))

theorem takeWhile_hex_append (d rest : List Char) (hd : ∀ c ∈ d, HexDigit c ≠ -1)
    (hrest : rest = [] ∨ ∃ c r, rest = c :: r ∧ HexDigit c = -1) :
    (d ++ rest).takeWhile (fun c => HexDigit c != -1) = d := by
  induction d with
  | nil =>
    rcases hrest with rfl | ⟨c, r, rfl, hc⟩
    · rfl
    · simp [List.takeWhile, hc]
  | cons x xs ih =>
    have hx := hd x (List.mem_cons_self _ _)
    have hx2 : (HexDigit x != -1) = true := by simpa using hx
    rw [List.cons_append, List.takeWhile_cons, hx2, if_pos rfl,
      ih (fun c hc => hd c (List.mem_cons_of_mem _ hc))]

/-- What `SetHex` computes on a text made of hexadecimal digits only. -/
theorem SetHex_of_run {BITS : Nat} (self : base_blob BITS) (d : List Char)
    (hd : ∀ c ∈ d, HexDigit c ≠ -1) :
    self.SetHex d =
      ⟨SetHex.fill (WIDTH BITS) d.reverse 0 (List.replicate (WIDTH BITS) 0)⟩ := by
  have h1 : d.dropWhile isspace = d :=
    dropWhile_isspace_append [] d (by simp)
      (fun c r h => isspace_of_hex c (hd c (by rw [h]; exact List.mem_cons_self _ _)))
  have h2 : SetHex.skip0x d = d :=
    skip0x_of_no_x d (fun c hc => tolower_ne_x_of_hex c (hd c hc))
  have h3 : d.takeWhile (fun c => HexDigit c != -1) = d := by
    have := takeWhile_hex_append d [] hd (Or.inl rfl)
    rwa [List.append_nil] at this
  unfold base_blob.SetHex
  simp only [h1, h2, h3]

theorem fill_map_tolower (W : Nat) : ∀ (l : List Char) (p : Nat) (d : List Nat),
    SetHex.fill W (l.map tolower) p d = SetHex.fill W l p d
  | [], _, _ => rfl
  | [c], p, d => by simp [SetHex.fill, HexDigit_tolower]
  | c :: c2 :: rest, p, d => by
    simp only [List.map_cons, SetHex.fill, HexDigit_tolower]
    rw [fill_map_tolower W rest]

/-- What `SetHex` computes on white space, an optional `0x`, a run of digits and a rest. -/
theorem SetHex_decompose {BITS : Nat} (self : base_blob BITS)
    (ws pfx digits rest : List Char)
    (hws : ∀ c ∈ ws, isspace c = true)
    (hpfx : pfx = [] ∨ pfx = ['0', 'x'] ∨ pfx = ['0', 'X'])
    (hdig : ∀ c ∈ digits, HexDigit c ≠ -1)
    (hrest : rest = [] ∨ ∃ c r, rest = c :: r ∧ HexDigit c = -1)
    (hno0x : pfx = [] → ∀ t, digits ++ rest ≠ '0' :: 'x' :: t ∧ digits ++ rest ≠ '0' :: 'X' :: t)
    (hnows : pfx = [] → digits = [] → ∀ c r, rest = c :: r → isspace c = false) :
    self.SetHex (ws ++ pfx ++ digits ++ rest) =
      ⟨SetHex.fill (WIDTH BITS) digits.reverse 0 (List.replicate (WIDTH BITS) 0)⟩ := by
  have h1 : (ws ++ pfx ++ digits ++ rest).dropWhile isspace = pfx ++ digits ++ rest := by
    rw [List.append_assoc, List.append_assoc, ← List.append_assoc pfx]
    apply dropWhile_isspace_append ws _ hws
    intro c r hcr
    rcases hpfx with rfl | rfl | rfl
    · cases digits with
      | nil => exact hnows rfl rfl c r (by simpa using hcr)
      | cons x xs =>
        simp only [List.nil_append, List.cons_append, List.cons.injEq] at hcr
        rw [← hcr.1]
        exact isspace_of_hex x (hdig x (List.mem_cons_self _ _))
    · simp only [List.cons_append, List.cons.injEq] at hcr
      rw [← hcr.1]; exact not_hex_x.2.2.1
    · simp only [List.cons_append, List.cons.injEq] at hcr
      rw [← hcr.1]; exact not_hex_x.2.2.1
  have h2 : SetHex.skip0x (pfx ++ digits ++ rest) = digits ++ rest := by
    rcases hpfx with rfl | rfl | rfl
    · have hn := hno0x rfl
      simp only [List.nil_append]
      match hdr : digits ++ rest with
      | [] => rfl
      | [_] => rfl
      | c0 :: c1 :: t =>
        simp only [SetHex.skip0x]
        rw [if_neg]
        rintro ⟨rfl, hx⟩
        rcases tolower_eq_x c1 hx with rfl | rfl
        · exact (hn t).1 hdr
        · exact (hn t).2 hdr
    · simp [SetHex.skip0x, not_hex_x.2.2.2.1]
    · simp [SetHex.skip0x, not_hex_x.2.2.2.2]
  unfold base_blob.SetHex
  simp only [h1, h2, takeWhile_hex_append digits rest hdig hrest]

/-- C15 (the claim fails as stated): the text `"  12"` is of the form `ws ++ pfx ++ digits ++
rest` with `ws = " "`, `pfx` and `digits` empty and `rest = " 12"`, which begins with a
character that is no hexadecimal digit; `SetHex` skips every leading space and reads the
digits `12`, whereas on the empty digit run it yields the zero value. -/
theorem C15_space_after_empty_run :
    (∀ c ∈ [' '], isspace c = true) ∧
    (∃ c r, " 12".toList = c :: r ∧ HexDigit c = -1) ∧
    (base_blob.zero 256).SetHex ([' '] ++ [] ++ [] ++ " 12".toList) =
      base_blob.ofBytes 256 [18] ∧
    (base_blob.zero 256).SetHex [] = base_blob.zero 256 ∧
    (base_blob.zero 256).SetHex ([' '] ++ [] ++ [] ++ " 12".toList) ≠
      (base_blob.zero 256).SetHex [] := by
  refine ⟨by decide, ⟨' ', "12".toList, by decide, by decide⟩, by decide!, by decide!, by decide!⟩

/-- C15 (amended): `SetHex` is permissive and depends only on the run of digits.  For every
text `ws ++ pfx ++ digits ++ rest`, where `ws` consists of white space, `pfx` is empty or
`0x` or `0X`, `digits` consists of hexadecimal digits, `rest` is empty or begins with a
character that is no hexadecimal digit, `digits ++ rest` does not begin with `0x` or `0X`
when `pfx` is empty, and `rest` does not begin with white space when `pfx` and `digits`
are both empty, `SetHex` yields the blob it yields on `digits` alone and on the
lower-cased `digits`, whatever the blobs it is called on held before. -/
theorem C15_SetHex_permissive {BITS : Nat} (self self2 self3 : base_blob BITS)
    (ws pfx digits rest : List Char)
    (hws : ∀ c ∈ ws, isspace c = true)
    (hpfx : pfx = [] ∨ pfx = ['0', 'x'] ∨ pfx = ['0', 'X'])
    (hdig : ∀ c ∈ digits, HexDigit c ≠ -1)
    (hrest : rest = [] ∨ ∃ c r, rest = c :: r ∧ HexDigit c = -1)
    (hno0x : pfx = [] → ∀ t, digits ++ rest ≠ '0' :: 'x' :: t ∧ digits ++ rest ≠ '0' :: 'X' :: t)
    (hnows : pfx = [] → digits = [] → ∀ c r, rest = c :: r → isspace c = false) :
    self.SetHex (ws ++ pfx ++ digits ++ rest) = self2.SetHex digits ∧
    self.SetHex (ws ++ pfx ++ digits ++ rest) = self3.SetHex (digits.map tolower) := by
  have hlow : ∀ c ∈ digits.map tolower, HexDigit c ≠ -1 := by
    intro c hc
    obtain ⟨x, hx, rfl⟩ := List.mem_map.mp hc
    rw [HexDigit_tolower]
    exact hdig x hx
  have hmain := SetHex_decompose self ws pfx digits rest hws hpfx hdig hrest hno0x hnows
  refine ⟨?_, ?_⟩
  · rw [hmain, SetHex_of_run self2 digits hdig]
  · rw [hmain, SetHex_of_run self3 _ hlow, ← List.map_reverse, fill_map_tolower]

/-- C15 (amended) at the text `" \taB z"`. -/
theorem C15_SetHex_permissive_witness :
    (∀ c ∈ [' ', '\t'], isspace c = true) ∧ (∀ c ∈ ['a', 'B'], HexDigit c ≠ -1) ∧
    (base_blob.zero 256).SetHex ([' ', '\t'] ++ [] ++ ['a', 'B'] ++ [' ', 'z']) =
      (base_blob.zero 256).SetHex ['a', 'B'] ∧
    (base_blob.zero 256).SetHex ([' ', '\t'] ++ [] ++ ['a', 'B'] ++ [' ', 'z']) =
      (base_blob.zero 256).SetHex (['a', 'B'].map tolower) :=
  ⟨by decide, by decide,
    C15_SetHex_permissive _ _ _ [' ', '\t'] [] ['a', 'B'] [' ', 'z']
      (by decide) (Or.inl rfl) (by decide) (Or.inr ⟨' ', ['z'], rfl, by decide⟩)
      (fun _ t => ⟨by simp, by simp⟩) (fun _ h => absurd h (by simp))⟩

theorem value_replicate_zero (m : Nat) :
    (List.replicate m 0).foldr (fun x acc => x + 256 * acc) 0 = 0 := by
  induction m with
  | zero => rfl
  | succ m ih => simp [List.replicate_succ, ih]

theorem nibbles_or (d0 d1 : Nat) (h0 : d0 < 16) (h1 : d1 < 16) :
    u8 (u8 d0 ||| (u8 d1 <<< 4)) = d0 + 16 * d1 := by
  have e := byte_of_nibbles (d0 + 16 * d1) (by omega)
  have e0 : (d0 + 16 * d1) % 16 = d0 := by omega
  have e1 : (d0 + 16 * d1) / 16 = d1 := by omega
  rwa [e0, e1] at e

theorem mod_step (B R M : Nat) (hB : B < 256) (hM : 0 < M) :
    (B + 256 * R) % (256 * M) = B + 256 * (R % M) := by
  have hr : R % M < M := Nat.mod_lt _ hM
  have hdm := Nat.div_add_mod R M
  have e : B + 256 * R = (B + 256 * (R % M)) + (256 * M) * (R / M) := by
    rw [Nat.mul_assoc]
    omega
  rw [e, Nat.add_mul_mod_self_left, Nat.mod_eq_of_lt]
  omega

/-- The last loop of `SetHex` on a storage whose units from `pre.length` on are zero: the
`m` units it can still write receive the value of the digits modulo `256 ^ m`. -/
theorem fill_value : ∀ (l : List Char) (pre : List Nat) (m : Nat),
    ∃ X : List Nat,
      SetHex.fill (pre.length + m) l pre.length (pre ++ List.replicate m 0) = pre ++ X ∧
      X.length = m ∧ (∀ x ∈ X, x < 256) ∧
      X.foldr (fun x acc => x + 256 * acc) 0 =
        l.foldr (fun c acc => (HexDigit c).toNat + 16 * acc) 0 % 256 ^ m
  | [], pre, m => by
    refine ⟨List.replicate m 0, by simp [SetHex.fill], by simp, ?_, ?_⟩
    · intro x hx
      rw [(List.mem_replicate.mp hx).2]; omega
    · rw [value_replicate_zero]; simp
  | [c], pre, m => by
    cases m with
    | zero =>
      refine ⟨[], by simp [SetHex.fill], rfl, by simp, ?_⟩
      simp [Nat.mod_one]
    | succ m =>
      have hc := HexDigit_lt c
      have hu : u8 (HexDigit c).toNat = (HexDigit c).toNat := by unfold u8; omega
      refine ⟨(HexDigit c).toNat :: List.replicate m 0, ?_, by simp, ?_, ?_⟩
      · simp only [SetHex.fill, List.replicate_succ, set_append_mid, hu]
        rw [if_pos (by omega)]
      · intro x hx
        rcases List.mem_cons.mp hx with h | h
        · omega
        · rw [(List.mem_replicate.mp h).2]; omega
      · simp only [List.foldr_cons, List.foldr_nil, value_replicate_zero]
        have : (256 : Nat) ^ (m + 1) ≥ 256 := by
          calc (256 : Nat) ^ (m + 1) = 256 ^ m * 256 := by rw [pow_succ]
            _ ≥ 1 * 256 := Nat.mul_le_mul_right _ (Nat.one_le_pow _ _ (by omega))
            _ = 256 := by omega
        rw [Nat.mod_eq_of_lt (by omega)]
  | c :: c2 :: rest, pre, m => by
    cases m with
    | zero =>
      refine ⟨[], by simp [SetHex.fill], rfl, by simp, ?_⟩
      simp [Nat.mod_one]
    | succ m =>
      have hc := HexDigit_lt c
      have hc2 := HexDigit_lt c2
      obtain ⟨X, hX, hlen, hbytes, hval⟩ :=
        fill_value rest (pre ++ [(HexDigit c).toNat + 16 * (HexDigit c2).toNat]) m
      refine ⟨((HexDigit c).toNat + 16 * (HexDigit c2).toNat) :: X, ?_, by simp [hlen], ?_, ?_⟩
      · simp only [SetHex.fill, List.replicate_succ, set_append_mid, getD_append_mid]
        rw [if_pos (by omega), nibbles_or _ _ hc hc2]
        simp only [List.length_append, List.length_singleton, List.append_assoc,
          List.singleton_append] at hX
        rw [show pre.length + (m + 1) = pre.length + 1 + m by omega]
        exact hX
      · intro x hx
        rcases List.mem_cons.mp hx with h | h
        · omega
        · exact hbytes x h
      · simp only [List.foldr_cons, hval]
        rw [pow_succ, Nat.mul_comm (256 ^ m) 256,
          ← mod_step _ _ _ (by omega) (Nat.pow_pos (by omega))]
        congr 1
        omega

theorem value_inj : ∀ (X Y : List Nat), X.length = Y.length →
    (∀ x ∈ X, x < 256) → (∀ y ∈ Y, y < 256) →
    X.foldr (fun x acc => x + 256 * acc) 0 = Y.foldr (fun x acc => x + 256 * acc) 0 → X = Y
  | [], [], _, _, _, _ => rfl
  | [], _ :: _, h, _, _, _ => by simp at h
  | _ :: _, [], h, _, _, _ => by simp at h
  | x :: xs, y :: ys, h, hx, hy, hv => by
    simp only [List.foldr_cons] at hv
    have h1 := hx x (List.mem_cons_self _ _)
    have h2 := hy y (List.mem_cons_self _ _)
    have e1 : x = y := by omega
    have e2 : xs.foldr (fun x acc => x + 256 * acc) 0 = ys.foldr (fun x acc => x + 256 * acc) 0 := by
      omega
    rw [e1, value_inj xs ys (by simpa using h) (fun a ha => hx a (List.mem_cons_of_mem _ ha))
      (fun a ha => hy a (List.mem_cons_of_mem _ ha)) e2]

theorem hexval_foldl (t : List Char) : ∀ acc,
    t.foldl (fun acc c => (HexDigit c).toNat + 16 * acc) acc =
      acc * 16 ^ t.length + t.foldl (fun acc c => (HexDigit c).toNat + 16 * acc) 0 := by
  induction t with
  | nil => intro acc; simp
  | cons x xs ih =>
    intro acc
    simp only [List.foldl_cons, List.length_cons]
    rw [ih, ih ((HexDigit x).toNat + 16 * 0)]
    ring

theorem hexval_cons (c : Char) (t : List Char) :
    hexval (c :: t) = (HexDigit c).toNat * 16 ^ t.length + hexval t := by
  unfold hexval
  rw [List.foldl_cons, hexval_foldl]
  simp

theorem hexval_lt (t : List Char) : hexval t < 16 ^ t.length := by
  induction t with
  | nil => simp [hexval]
  | cons x xs ih =>
    rw [hexval_cons, List.length_cons, pow_succ]
    have := HexDigit_lt x
    nlinarith [Nat.pos_of_ne_zero (pow_ne_zero xs.length (show (16 : Nat) ≠ 0 by omega))]

theorem hexval_zeros (k : Nat) (d : List Char) : hexval (List.replicate k '0' ++ d) = hexval d := by
  induction k with
  | zero => simp
  | succ k ih =>
    have h0 : (HexDigit '0').toNat = 0 := by decide
    rw [List.replicate_succ, List.cons_append, hexval_cons, ih, h0]
    simp

/-- The value and validity of `SetHex` on a run of digits. -/
theorem SetHex_run_value {BITS : Nat} (self : base_blob BITS) (d : List Char)
    (hd : ∀ c ∈ d, HexDigit c ≠ -1) :
    (self.SetHex d).valid ∧ (self.SetHex d).value = hexval d % 256 ^ WIDTH BITS := by
  rw [SetHex_of_run self d hd]
  obtain ⟨X, hX, hlen, hbytes, hval⟩ := fill_value d.reverse [] (WIDTH BITS)
  simp only [List.length_nil, Nat.zero_add, List.nil_append] at hX
  rw [hX]
  refine ⟨⟨hlen, hbytes⟩, ?_⟩
  unfold base_blob.value hexval
  simp only []
  rw [hval, List.foldr_reverse]

theorem pow256 (W : Nat) : 256 ^ W = 2 ^ (8 * W) := by
  rw [pow_mul]; norm_num

/-- C16: `SetHex` keeps the lowest `N` bits of the digit run and zero-fills the rest.  For
every run `d` of hexadecimal digits, of any length, the result is a valid blob whose
value is the integer that `d` denotes in base 16 modulo `2^(8 * WIDTH)`, which is `2^N` when
`N` is a multiple of 8; the blob the operation is called on does not matter; `"0x00"` parses
to the zero value; and leading zero digits put before `d` do not change the result. -/
theorem C16_SetHex_value_mod {BITS : Nat} (self : base_blob BITS) (d : List Char)
    (hd : ∀ c ∈ d, HexDigit c ≠ -1) :
    (self.SetHex d).valid ∧
    (self.SetHex d).value = hexval d % 2 ^ (8 * WIDTH BITS) ∧
    (BITS % 8 = 0 → (self.SetHex d).value = hexval d % 2 ^ BITS) ∧
    (∀ other : base_blob BITS, other.SetHex d = self.SetHex d) ∧
    self.SetHex "0x00".toList = base_blob.zero BITS ∧
    (∀ k, self.SetHex (List.replicate k '0' ++ d) = self.SetHex d) := by
  obtain ⟨hvalid, hval⟩ := SetHex_run_value self d hd
  rw [pow256] at hval
  refine ⟨hvalid, hval, ?_, fun _ => rfl, ?_, ?_⟩
  · intro h8
    have e : 8 * WIDTH BITS = BITS := by unfold WIDTH; omega
    rw [hval, e]
  · have hz : ∀ c ∈ ['0', '0'], HexDigit c ≠ -1 := by decide
    have h1 := SetHex_decompose self [] ['0', 'x'] ['0', '0'] [] (by simp) (by simp) hz
      (Or.inl rfl) (fun h => absurd h (by simp)) (fun h => absurd h (by simp))
    have h2 := SetHex_of_run self ['0', '0'] hz
    have h3 : self.SetHex "0x00".toList = self.SetHex ['0', '0'] := by
      rw [h2]; exact h1
    obtain ⟨hv, hvv⟩ := SetHex_run_value self ['0', '0'] hz
    rw [h3]
    have hzero : hexval ['0', '0'] = 0 := by decide
    rw [hzero, Nat.zero_mod] at hvv
    cases hs : self.SetHex ['0', '0'] with
    | mk X =>
      rw [hs] at hv hvv
      unfold base_blob.zero
      congr 1
      apply value_inj X _ (by simpa using hv.1) hv.2
      · intro y hy
        rw [(List.mem_replicate.mp hy).2]; omega
      · rw [value_replicate_zero]; exact hvv
  · intro k
    have hd2 : ∀ c ∈ List.replicate k '0' ++ d, HexDigit c ≠ -1 := by
      intro c hc
      rcases List.mem_append.mp hc with h | h
      · rw [(List.mem_replicate.mp h).2]; decide
      · exact hd c h
    obtain ⟨hv2, hval2⟩ := SetHex_run_value self _ hd2
    obtain ⟨hv1, hval1⟩ := SetHex_run_value self d hd
    rw [hexval_zeros, ← hval1] at hval2
    cases hs2 : self.SetHex (List.replicate k '0' ++ d) with
    | mk X =>
      cases hs1 : self.SetHex d with
      | mk Y =>
        rw [hs2] at hv2 hval2
        rw [hs1] at hv1 hval2
        congr 1
        exact value_inj X Y (by rw [hv2.1, hv1.1]) hv2.2 hv1.2 hval2

/-- C16 at the 160-bit width and the digits `1aB`. -/
theorem C16_SetHex_value_mod_witness :
    (∀ c ∈ ['1', 'a', 'B'], HexDigit c ≠ -1) ∧
    ((base_blob.zero 160).SetHex ['1', 'a', 'B']).valid ∧
    ((base_blob.zero 160).SetHex ['1', 'a', 'B']).value =
      hexval ['1', 'a', 'B'] % 2 ^ (8 * WIDTH 160) ∧
    (160 % 8 = 0 → ((base_blob.zero 160).SetHex ['1', 'a', 'B']).value =
      hexval ['1', 'a', 'B'] % 2 ^ 160) ∧
    (∀ other : base_blob 160, other.SetHex ['1', 'a', 'B'] =
      (base_blob.zero 160).SetHex ['1', 'a', 'B']) ∧
    (base_blob.zero 160).SetHex "0x00".toList = base_blob.zero 160 ∧
    (∀ k, (base_blob.zero 160).SetHex (List.replicate k '0' ++ ['1', 'a', 'B']) =
      (base_blob.zero 160).SetHex ['1', 'a', 'B']) :=
  ⟨by decide, C16_SetHex_value_mod _ _ (by decide)⟩

theorem value_getD : ∀ (X : List Nat), (∀ x ∈ X, x < 256) → ∀ j,
    X.getD j 0 = X.foldr (fun x acc => x + 256 * acc) 0 / 256 ^ j % 256
  | [], _, j => by simp
  | x :: xs, hx, 0 => by
    have h1 := hx x (List.mem_cons_self _ _)
    simp only [List.getD_cons_zero, List.foldr_cons, pow_zero, Nat.div_one]
    omega
  | x :: xs, hx, j + 1 => by
    have h1 := hx x (List.mem_cons_self _ _)
    rw [List.getD_cons_succ, value_getD xs (fun a ha => hx a (List.mem_cons_of_mem _ ha)) j]
    simp only [List.foldr_cons]
    rw [pow_succ, Nat.mul_comm (256 ^ j) 256, ← Nat.div_div_eq_div_mul]
    congr 2
    omega

/-- C18 (the claim fails as stated): on the three digits `abc` the leftover digit `a` goes
to byte 1, whose value is `0x0a`: the digit is in the low nibble and the high nibble is
zero, not the reverse. -/
theorem C18_leftover_digit_not_high_nibble :
    (∀ c ∈ ['a', 'b', 'c'], HexDigit c ≠ -1) ∧
    HexDigit 'a' = 10 ∧
    ((base_blob.zero 256).SetHex ['a', 'b', 'c']).get 0 = 188 ∧
    ((base_blob.zero 256).SetHex ['a', 'b', 'c']).get 1 = 10 ∧
    ¬ (((base_blob.zero 256).SetHex ['a', 'b', 'c']).get 1 / 16 = 10 ∧
       ((base_blob.zero 256).SetHex ['a', 'b', 'c']).get 1 % 16 = 0) := by
  refine ⟨by decide, by decide, by decide!, by decide!, by decide!⟩

/-- C18 (amended): for every run of hexadecimal digits of odd length `2m + 1` that fits the
width (`m < WIDTH`), `SetHex` places the leftover most-significant digit `c` in the low
nibble of byte `m`, the byte after the last fully filled one, and leaves the high nibble
of that byte zero: the byte equals the value of `c`. -/
theorem C18_leftover_digit_low_nibble {BITS : Nat} (self : base_blob BITS) (c : Char)
    (t : List Char) (m : Nat) (hc : HexDigit c ≠ -1) (ht : ∀ x ∈ t, HexDigit x ≠ -1)
    (hlen : t.length = 2 * m) (hm : m < WIDTH BITS) :
    (self.SetHex (c :: t)).get m = (HexDigit c).toNat ∧
    (self.SetHex (c :: t)).get m % 16 = (HexDigit c).toNat ∧
    (self.SetHex (c :: t)).get m / 16 = 0 := by
  have hd : ∀ x ∈ c :: t, HexDigit x ≠ -1 := by
    intro x hx
    rcases List.mem_cons.mp hx with h | h
    · rw [h]; exact hc
    · exact ht x h
  obtain ⟨hvalid, hval⟩ := SetHex_run_value self (c :: t) hd
  have hdig := HexDigit_lt c
  have hlt := hexval_lt t
  have e16 : (16 : Nat) ^ t.length = 256 ^ m := by
    rw [hlen, pow_mul]; norm_num
  rw [e16] at hlt
  have hpos : 0 < 256 ^ m := Nat.pow_pos (by omega)
  have hle : 256 ^ (m + 1) ≤ 256 ^ WIDTH BITS := Nat.pow_le_pow_right (by omega) hm
  have hsmall : hexval (c :: t) < 256 ^ (m + 1) := by
    rw [hexval_cons, e16, pow_succ]
    nlinarith
  have hget : (self.SetHex (c :: t)).get m = (HexDigit c).toNat := by
    unfold base_blob.get
    rw [value_getD _ hvalid.2 m]
    unfold base_blob.value at hval
    rw [hval, Nat.mod_eq_of_lt (lt_of_lt_of_le hsmall hle), hexval_cons, e16,
      Nat.add_comm, Nat.add_mul_div_right _ _ hpos, Nat.div_eq_of_lt hlt, Nat.zero_add]
    omega
  rw [hget]
  omega

/-- C18 (amended) at the three digits `abc` for the 256-bit width. -/
theorem C18_leftover_digit_low_nibble_witness :
    HexDigit 'a' ≠ -1 ∧ (∀ x ∈ ['b', 'c'], HexDigit x ≠ -1) ∧ ['b', 'c'].length = 2 * 1 ∧
    1 < WIDTH 256 ∧
    (((base_blob.zero 256).SetHex ('a' :: ['b', 'c'])).get 1 = (HexDigit 'a').toNat ∧
    ((base_blob.zero 256).SetHex ('a' :: ['b', 'c'])).get 1 % 16 = (HexDigit 'a').toNat ∧
    ((base_blob.zero 256).SetHex ('a' :: ['b', 'c'])).get 1 / 16 = 0) :=
  ⟨by decide, by decide, by decide, by decide,
    C18_leftover_digit_low_nibble _ 'a' ['b', 'c'] 1 (by decide) (by decide) (by decide)
      (by decide)⟩

/-! ## The division loop on its counter -/

theorem bits_inner_le (x pos : Nat) : ∀ n, bits.inner x pos n ≤ 32 * pos + n + 1 := by
  intro n
  induction n with
  | zero => simp [bits.inner]
  | succ n ih =>
    unfold bits.inner
    split
    · omega
    · omega

theorem bits_outer_le (d : List Nat) : ∀ n, bits.outer d n ≤ 32 * n := by
  intro n
  induction n with
  | zero => simp [bits.outer]
  | succ n ih =>
    unfold bits.outer
    split
    · have := bits_inner_le (d.getD n 0) n 31
      omega
    · omega

/-- The loop on the `int` counter stops as soon as the condition has been evaluated
`n + 1` times, after `n` iterations, in the state that `opDivAssign.loop` computes; the
indices it has written are all below `n / 32` rounded up. -/
theorem whileLoop_spec {BITS : Nat} : ∀ (n fuel : Nat) (st : DivLoopState BITS), n < fuel →
    ∃ ws : List Nat,
      opDivAssign.whileLoop fuel ((n : Int) - 1) st =
        some ⟨(opDivAssign.loop n (st.num, st.div, st.self)).1,
          (opDivAssign.loop n (st.num, st.div, st.self)).2.1,
          (opDivAssign.loop n (st.num, st.div, st.self)).2.2,
          st.iterations + n, st.writes ++ ws⟩ ∧
      ∀ i ∈ ws, 32 * i < n := by
  intro n
  induction n with
  | zero =>
    intro fuel st hf
    obtain ⟨f, rfl⟩ : ∃ f, fuel = f + 1 := ⟨fuel - 1, by omega⟩
    refine ⟨[], ?_, by simp⟩
    unfold opDivAssign.whileLoop
    rw [if_neg (by omega)]
    simp [opDivAssign.loop]
  | succ n ih =>
    intro fuel st hf
    obtain ⟨f, rfl⟩ : ∃ f, fuel = f + 1 := ⟨fuel - 1, by omega⟩
    have hshift : ((n + 1 : Nat) : Int) - 1 = (n : Int) := by omega
    rw [hshift]
    unfold opDivAssign.whileLoop
    rw [if_pos (by omega)]
    simp only [Int.toNat_ofNat]
    unfold opDivAssign.loop
    by_cases hge : opGe st.num st.div = true
    · simp only [hge, if_true]
      obtain ⟨ws, hws, hb⟩ := ih f
        ⟨opSubAssign st.num st.div, opShrAssign st.div 1,
          ⟨st.self.data.set (n / 32) (u8 (st.self.data.getD (n / 32) 0 ||| (1 <<< (n &&& 31))))⟩,
          st.iterations + 1, st.writes ++ [n / 32]⟩ (by omega)
      refine ⟨(n / 32) :: ws, ?_, ?_⟩
      · rw [hws]
        simp only [List.append_assoc, List.singleton_append, Nat.add_assoc, Nat.add_comm 1 n]
      · intro i hi
        rcases List.mem_cons.mp hi with h | h
        · rw [h]; omega
        · have := hb i h; omega
    · simp only [hge, if_false, Bool.false_eq_true]
      obtain ⟨ws, hws, hb⟩ := ih f
        ⟨st.num, opShrAssign st.div 1, st.self, st.iterations + 1, st.writes⟩ (by omega)
      refine ⟨ws, ?_, ?_⟩
      · rw [hws]
        simp only [Nat.add_assoc, Nat.add_comm 1 n]
      · intro i hi
        have := hb i hi; omega

/-- More room for the loop does not change its result. -/
theorem whileLoop_mono {BITS : Nat} : ∀ (fuel : Nat) (shift : Int) (st r : DivLoopState BITS),
    opDivAssign.whileLoop fuel shift st = some r →
    ∀ fuel2, fuel ≤ fuel2 → opDivAssign.whileLoop fuel2 shift st = some r := by
  intro fuel
  induction fuel with
  | zero => intro shift st r h; simp [opDivAssign.whileLoop] at h
  | succ f ih =>
    intro shift st r h fuel2 hf
    obtain ⟨f2, rfl⟩ : ∃ f2, fuel2 = f2 + 1 := ⟨fuel2 - 1, by omega⟩
    unfold opDivAssign.whileLoop at h ⊢
    by_cases hs : shift ≥ 0
    · rw [if_pos hs] at h ⊢
      exact ih _ _ _ h f2 (by omega)
    · rw [if_neg hs] at h ⊢
      exact h

/-- C21: division is total and index-safe for non-zero divisors.  For every dividend `a`
and every valid non-zero divisor `b`, the loop of `operator/=`, run on its `int` counter,
stops as soon as it is given room for one more evaluation of its condition than
`bits(a) - bits(b) + 1`; it has then performed exactly `bits(a) - bits(b) + 1` iterations
when `bits(b) <= bits(a)` and none otherwise, it leaves the outcome of `opDivAssign`, and
every index `shift / 32` it has written is below `WIDTH`. -/
theorem C21_div_loop_total_and_in_bounds {BITS : Nat} (a b : base_blob BITS) (hb : b.valid)
    (hne : b ≠ base_blob.zero BITS) :
    ∃ writes : List Nat,
      (∀ fuel, a.bits - b.bits + 1 < fuel →
        opDivAssign.traced fuel a b =
          some (opDivAssign a b,
            (if b.bits ≤ a.bits then a.bits - b.bits + 1 else 0), writes)) ∧
      (opDivAssign a b).error = none ∧
      ∀ i ∈ writes, i < WIDTH BITS := by
  have h0 : b.bits ≠ 0 := fun h => hne ((bits_eq_zero_iff b hb.1).mp h)
  by_cases h1 : b.bits > a.bits
  · refine ⟨[], fun fuel _ => ?_, ?_, by simp⟩
    · have hle : ¬ b.bits ≤ a.bits := by omega
      simp [opDivAssign.traced, opDivAssign, h0, h1, hle]
    · simp [opDivAssign, h0, h1]
  · have hle : b.bits ≤ a.bits := by omega
    have habits : a.bits ≤ 32 * WIDTH BITS := bits_outer_le a.data (WIDTH BITS)
    obtain ⟨ws, hws, hbound⟩ := whileLoop_spec (a.bits - b.bits + 1) (a.bits - b.bits + 2)
      (⟨a, opShlAssign b (a.bits - b.bits), base_blob.ofUint64 BITS 0, 0, []⟩ :
        DivLoopState BITS) (by omega)
    refine ⟨ws, fun fuel hf => ?_, by simp [opDivAssign, h0, h1], ?_⟩
    · have hrun := whileLoop_mono _ _ _ _ hws fuel (by omega)
      have hcast : ((a.bits - b.bits : Nat) : Int) = ((a.bits - b.bits + 1 : Nat) : Int) - 1 := by
        omega
      simp only [opDivAssign.traced, opDivAssign, h0, h1, if_false, hcast, hrun, if_pos hle]
      simp
    · intro i hi
      have := hbound i hi
      omega

/-- C21 at the dividend 10 and the divisor 3. -/
theorem C21_div_loop_total_and_in_bounds_witness :
    (base_blob.ofBytes 512 [3]).valid ∧ base_blob.ofBytes 512 [3] ≠ base_blob.zero 512 ∧
    ∃ writes : List Nat,
      (∀ fuel, (base_blob.ofBytes 512 [10]).bits - (base_blob.ofBytes 512 [3]).bits + 1 < fuel →
        opDivAssign.traced fuel (base_blob.ofBytes 512 [10]) (base_blob.ofBytes 512 [3]) =
          some (opDivAssign (base_blob.ofBytes 512 [10]) (base_blob.ofBytes 512 [3]),
            (if (base_blob.ofBytes 512 [3]).bits ≤ (base_blob.ofBytes 512 [10]).bits then
              (base_blob.ofBytes 512 [10]).bits - (base_blob.ofBytes 512 [3]).bits + 1 else 0),
            writes)) ∧
      (opDivAssign (base_blob.ofBytes 512 [10]) (base_blob.ofBytes 512 [3])).error = none ∧
      ∀ i ∈ writes, i < WIDTH 512 :=
  ⟨by decide, by decide, C21_div_loop_total_and_in_bounds _ _ (by decide) (by decide)⟩

/-- C13 at a vector of 20 bytes for the 160-bit width. -/
theorem C13_ofVector_exact_length_witness :
    ((base_blob.ofVector 160 (List.replicate 20 7)).isSome = true ↔
      (List.replicate 20 7).length = WIDTH 160) ∧
    ((List.replicate 20 7).length ≠ WIDTH 160 →
      base_blob.ofVector 160 (List.replicate 20 7) = none) ∧
    (∀ b, base_blob.ofVector 160 (List.replicate 20 7) = some b →
      b.rawBytes = List.replicate 20 7 ∧ b.data = List.replicate 20 7 ∧
        b.size = (List.replicate 20 7).length) :=
  C13_ofVector_exact_length 160 (List.replicate 20 7)

/-- C17 at the 512-bit blob with bytes `01 02 03`. -/
theorem C17_trim256_copies_low_bytes_witness :
    (∀ i, i < 32 → (trim256 (base_blob.ofBytes 512 [1, 2, 3])).get i =
      (base_blob.ofBytes 512 [1, 2, 3]).get i) ∧
    (trim256 (base_blob.ofBytes 512 [1, 2, 3])).data.length = WIDTH 256 ∧
    ((base_blob.ofBytes 512 [1, 2, 3]).valid → (trim256 (base_blob.ofBytes 512 [1, 2, 3])).valid) :=
  C17_trim256_copies_low_bytes (base_blob.ofBytes 512 [1, 2, 3])

/-- C20 at the dividend 7. -/
theorem C20_div_by_zero_clears_dividend_witness :
    (opDivAssign (base_blob.ofBytes 512 [7]) (base_blob.zero 512)).error =
      some "Division by zero" ∧
    (opDivAssign (base_blob.ofBytes 512 [7]) (base_blob.zero 512)).self = base_blob.zero 512 ∧
    (base_blob.ofBytes 512 [7] ≠ base_blob.zero 512 →
      (opDivAssign (base_blob.ofBytes 512 [7]) (base_blob.zero 512)).self ≠
        base_blob.ofBytes 512 [7]) :=
  C20_div_by_zero_clears_dividend (base_blob.ofBytes 512 [7])

end Uint256
